import Mathlib

/-!
Verification of the graph-search engine (degree-sequence realization,
2-switch metaheuristics, graph6 encoding, discovery detection).

Each definition below is a shallow embedding of a Python function of the
repository, named after its source function.  Machine integers are modelled
as `Int`/`Nat` (Python integers are unbounded), Python floats are modelled
as exact rationals (`Rat`) where the code only does arithmetic that is
exact at the inputs considered, and as real numbers (`Real`) where the
objective value (a LAPACK eigenvalue) enters.  Python exceptions are
modelled with `Except String`; `Option` marks potential non-termination
(a `while` loop with no bound in the source, run on explicit fuel).
Randomness (`random.Random`) is modelled by oracle parameters: a shuffle
oracle for `rnd.shuffle` and a single stream `u : Nat -> Rat` of values in
`[0,1)` consumed position by position for `rnd.choice` / `rnd.random`,
mirroring the order in which the source consumes its one PRNG.
-/

/-! ## Edge primitives (src/core/services/rewrite.py, meta.py)

`edgeKey` is `_edge_key` of rewrite.py: the canonical representation
`(min u v, max u v)` of an undirected edge. -/

def edgeKey (u v : ℕ) : ℕ × ℕ :=
  if u < v then (u, v) else (v, u)

/-- Number of edges of the finite edge set `E` incident to vertex `v`
(each edge is stored once, as an ordered pair). -/
def degIn (E : Finset (ℕ × ℕ)) (v : ℕ) : ℕ :=
  (E.filter (fun e => e.1 = v ∨ e.2 = v)).card

/-- Number of edges of the edge list `l` incident to vertex `v`. -/
def degList (l : List (ℕ × ℕ)) (v : ℕ) : ℕ :=
  (l.filter (fun e => e.1 = v ∨ e.2 = v)).length

/-- Lexicographic order on pairs, the order in which Python compares
tuples (used by `sorted` / `list.sort` on edge lists). -/
def edgeLe (a b : ℕ × ℕ) : Prop :=
  a.1 < b.1 ∨ (a.1 = b.1 ∧ a.2 ≤ b.2)

instance : DecidableRel edgeLe := fun a b => by
  unfold edgeLe; infer_instance

instance : IsTrans (ℕ × ℕ) edgeLe where
  trans a b c hab hbc := by
    rcases hab with h | ⟨h1, h2⟩ <;> rcases hbc with h' | ⟨h1', h2'⟩ <;>
      unfold edgeLe <;> omega

instance : IsAntisymm (ℕ × ℕ) edgeLe where
  antisymm a b hab hba := by
    rcases hab with h | ⟨h1, h2⟩ <;> rcases hba with h' | ⟨h1', h2'⟩ <;>
      [omega; omega; omega; skip]
    have : a.1 = b.1 := h1
    have : a.2 = b.2 := le_antisymm h2 h2'
    exact Prod.ext h1 this

instance : IsTotal (ℕ × ℕ) edgeLe where
  total a b := by unfold edgeLe; omega

/-- Model of Python's `sorted(edge_set)`: the elements of the finite set
listed in ascending lexicographic order.  (A Python `set` iterates in an
unspecified order; after `sorted` the result is this unique list, so the
definition lifts a stable sort over the underlying multiset.) -/
def sortedEdges (E : Finset (ℕ × ℕ)) : List (ℕ × ℕ) :=
  Quot.liftOn E.val (fun l => List.insertionSort edgeLe l) (fun l1 l2 h =>
    List.eq_of_perm_of_sorted
      ((List.perm_insertionSort edgeLe l1).trans
        (h.trans (List.perm_insertionSort edgeLe l2).symm))
      (List.sorted_insertionSort edgeLe l1)
      (List.sorted_insertionSort edgeLe l2))

theorem sortedEdges_perm (E : Finset (ℕ × ℕ)) :
    (E.val : Multiset (ℕ × ℕ)) = ↑(sortedEdges E) := by
  rcases E with ⟨m, hm⟩
  induction m using Quot.inductionOn with
  | h l =>
    exact (Multiset.coe_eq_coe.2 (List.perm_insertionSort edgeLe l).symm)

theorem sortedEdges_sorted (E : Finset (ℕ × ℕ)) :
    List.Sorted edgeLe (sortedEdges E) := by
  rcases E with ⟨m, hm⟩
  induction m using Quot.inductionOn with
  | h l => exact List.sorted_insertionSort edgeLe l

/-! ## Graph6 size prefix (src/core/services/graph6.py, `_encode_n_graph6`)

The output string is modelled as the list of its character codes
(`chr(x)` contributes the code `x`). -/

def encode_n_graph6 (n : ℤ) : Except String (List ℕ) :=
  if n < 0 then .error "graph6: n must be >= 0"
  else if n ≤ 62 then .ok [(n + 63).toNat]
  else if n ≤ 258047 then
    .ok [126, ((n.toNat >>> 12) &&& 63) + 63, ((n.toNat >>> 6) &&& 63) + 63,
         (n.toNat &&& 63) + 63]
  else if n ≤ 68719476735 then
    .ok ([126, 126] ++
      ([30, 24, 18, 12, 6, 0].map (fun s => ((n.toNat >>> s) &&& 63) + 63)))
  else .error "graph6: n too large"

theorem shiftRight_and63 (x k : ℕ) : (x >>> k) &&& 63 = x / 2 ^ k % 64 := by
  rw [Nat.shiftRight_eq_div_pow]
  simpa using Nat.and_pow_two_sub_one_eq_mod (x / 2 ^ k) 6

/-- Claim C8: the graph6 size prefix is `chr(n+63)` for `0 ≤ n ≤ 62`
(so `n = 62` encodes as the single byte 125, the character `\x7d`);
for `63 ≤ n ≤ 258047` it is `~` (code 126) followed by three bytes holding
the big-endian 6-bit groups of `n`, each offset by 63; for
`258048 ≤ n ≤ 2^36 - 1` it is `~~` followed by six such bytes; and the
encoder raises exactly when `n < 0` or `n ≥ 2^36`. -/
theorem graph6_size_prefix (n : ℤ) :
    (0 ≤ n → n ≤ 62 → encode_n_graph6 n = .ok [n.toNat + 63]) ∧
    (63 ≤ n → n ≤ 258047 →
      encode_n_graph6 n =
        .ok [126, n.toNat / 4096 % 64 + 63, n.toNat / 64 % 64 + 63,
             n.toNat % 64 + 63] ∧
      4096 * (n.toNat / 4096 % 64) + 64 * (n.toNat / 64 % 64) + n.toNat % 64
        = n.toNat) ∧
    (258048 ≤ n → n ≤ 2 ^ 36 - 1 →
      encode_n_graph6 n =
        .ok [126, 126, n.toNat / 2 ^ 30 % 64 + 63, n.toNat / 2 ^ 24 % 64 + 63,
             n.toNat / 2 ^ 18 % 64 + 63, n.toNat / 2 ^ 12 % 64 + 63,
             n.toNat / 2 ^ 6 % 64 + 63, n.toNat % 64 + 63] ∧
      2 ^ 30 * (n.toNat / 2 ^ 30 % 64) + 2 ^ 24 * (n.toNat / 2 ^ 24 % 64) +
        2 ^ 18 * (n.toNat / 2 ^ 18 % 64) + 2 ^ 12 * (n.toNat / 2 ^ 12 % 64) +
        2 ^ 6 * (n.toNat / 2 ^ 6 % 64) + n.toNat % 64 = n.toNat) ∧
    ((∃ msg, encode_n_graph6 n = .error msg) ↔ (n < 0 ∨ 2 ^ 36 ≤ n)) := by
  have hx : ∀ x k : ℕ, (x >>> k) &&& 63 = x / 2 ^ k % 64 := shiftRight_and63
  have hand : ∀ x : ℕ, x &&& 63 = x % 64 := by
    intro x; simpa using Nat.and_pow_two_sub_one_eq_mod x 6
  refine ⟨?_, ?_, ?_, ?_⟩
  · intro h0 h62
    unfold encode_n_graph6
    rw [if_neg (by omega), if_pos h62]
    exact congrArg Except.ok (by congr 1; omega)
  · intro h63 hhi
    have hn0 : ¬ n < 0 := by omega
    have hn62 : ¬ n ≤ 62 := by omega
    have htoNat : (258048 : ℕ) ≤ n.toNat ∨ n.toNat ≤ 258047 := by omega
    constructor
    · unfold encode_n_graph6
      rw [if_neg hn0, if_neg hn62, if_pos hhi]
      rw [hx, hx, hand]
      norm_num
    · have : n.toNat ≤ 258047 := by omega
      omega
  · intro hlo hhi
    have hn0 : ¬ n < 0 := by omega
    have hn62 : ¬ n ≤ 62 := by omega
    have hn258 : ¬ n ≤ 258047 := by omega
    have hbig : n ≤ 68719476735 := by omega
    constructor
    · unfold encode_n_graph6
      rw [if_neg hn0, if_neg hn62, if_neg hn258, if_pos hbig]
      simp only [List.map_cons, List.map_nil, hx]
      norm_num
    · have : n.toNat ≤ 68719476735 := by omega
      omega
  · constructor
    · rintro ⟨msg, hmsg⟩
      by_contra hcon
      push_neg at hcon
      obtain ⟨h0, h36⟩ := hcon
      unfold encode_n_graph6 at hmsg
      rw [if_neg (by omega)] at hmsg
      by_cases h62 : n ≤ 62
      · rw [if_pos h62] at hmsg; exact Except.noConfusion hmsg
      · rw [if_neg h62] at hmsg
        by_cases h258 : n ≤ 258047
        · rw [if_pos h258] at hmsg; exact Except.noConfusion hmsg
        · rw [if_neg h258] at hmsg
          rw [if_pos (by omega)] at hmsg
          exact Except.noConfusion hmsg
    · intro h
      rcases h with h | h
      · exact ⟨"graph6: n must be >= 0", by unfold encode_n_graph6; rw [if_pos h]⟩
      · refine ⟨"graph6: n too large", ?_⟩
        unfold encode_n_graph6
        rw [if_neg (by omega), if_neg (by omega), if_neg (by omega),
            if_neg (by omega)]

/-- Witness for C8 at the boundary values 62 and 63 named by the spec. -/
theorem graph6_size_prefix_witness :
    encode_n_graph6 62 = .ok [125] ∧
    encode_n_graph6 63 = .ok [126, 0 + 63, 0 + 63, 63 + 63] := by
  have h62 := ( graph6_size_prefix 62).1 (by decide) (by decide)
  have h63 := (( graph6_size_prefix 63).2.1 (by decide) (by decide)).1
  refine ⟨?_, ?_⟩
  · rw [h62]; exact congrArg Except.ok (by decide)
  · rw [h63]; exact congrArg Except.ok (by decide)

/-! ## The 2-switch move (src/core/services/meta.py, `_two_switch`)

The source draws `(a,b)` and `(c,d)` with `rnd.choice` from the edge list;
here the two drawn edges are explicit parameters `e1`, `e2`.  The in-place
mutation of the Python `set` is modelled by returning the new edge set
together with the `Bool` result. -/

def two_switch (E : Finset (ℕ × ℕ)) (e1 e2 : ℕ × ℕ) : Bool × Finset (ℕ × ℕ) :=
  if E.card < 2 then (false, E)
  else
    if ({e1.1, e1.2, e2.1, e2.2} : Finset ℕ).card ≠ 4 then (false, E)
    else if edgeKey e1.1 e2.1 ∉ E ∧ edgeKey e1.2 e2.2 ∉ E then
      (true, insert (edgeKey e1.2 e2.2) (insert (edgeKey e1.1 e2.1)
        ((E.erase (edgeKey e1.1 e1.2)).erase (edgeKey e2.1 e2.2))))
    else if edgeKey e1.1 e2.2 ∉ E ∧ edgeKey e1.2 e2.1 ∉ E then
      (true, insert (edgeKey e1.2 e2.1) (insert (edgeKey e1.1 e2.2)
        ((E.erase (edgeKey e1.1 e1.2)).erase (edgeKey e2.1 e2.2))))
    else (false, E)

theorem degIn_insert (E : Finset (ℕ × ℕ)) (e : ℕ × ℕ) (v : ℕ) (he : e ∉ E) :
    degIn (insert e E) v = degIn E v + (if e.1 = v ∨ e.2 = v then 1 else 0) := by
  unfold degIn
  rw [Finset.filter_insert]
  split
  · rw [Finset.card_insert_of_not_mem (fun hc => he ((Finset.mem_filter.1 hc).1))]
  · omega

theorem degIn_erase (E : Finset (ℕ × ℕ)) (e : ℕ × ℕ) (v : ℕ) (he : e ∈ E) :
    degIn E v = degIn (E.erase e) v + (if e.1 = v ∨ e.2 = v then 1 else 0) := by
  unfold degIn
  have hfe : Finset.filter (fun x : ℕ × ℕ => x.1 = v ∨ x.2 = v) (E.erase e) =
      (Finset.filter (fun x : ℕ × ℕ => x.1 = v ∨ x.2 = v) E).erase e := by
    ext x
    simp only [Finset.mem_filter, Finset.mem_erase]
    tauto
  rw [hfe]
  by_cases hp : e.1 = v ∨ e.2 = v
  · rw [if_pos hp]
    have hmem : e ∈ E.filter (fun x => x.1 = v ∨ x.2 = v) :=
      Finset.mem_filter.2 ⟨he, hp⟩
    have h1 : 1 ≤ (E.filter (fun x => x.1 = v ∨ x.2 = v)).card :=
      Finset.card_pos.2 ⟨e, hmem⟩
    rw [Finset.card_erase_of_mem hmem]
    omega
  · have hnm : e ∉ Finset.filter (fun x : ℕ × ℕ => x.1 = v ∨ x.2 = v) E :=
      fun hc => hp (Finset.mem_filter.1 hc).2
    rw [if_neg hp, Finset.erase_eq_of_not_mem hnm]
    omega

theorem degIn_rewire (E : Finset (ℕ × ℕ)) (o1 o2 f1 f2 : ℕ × ℕ)
    (h1 : o1 ∈ E) (h2 : o2 ∈ E) (h12 : o1 ≠ o2)
    (hf1 : f1 ∉ E) (hf2 : f2 ∉ E) (hff : f1 ≠ f2) (v : ℕ) :
    degIn (insert f2 (insert f1 ((E.erase o1).erase o2))) v +
      (if o1.1 = v ∨ o1.2 = v then 1 else 0) +
      (if o2.1 = v ∨ o2.2 = v then 1 else 0) =
    degIn E v + (if f1.1 = v ∨ f1.2 = v then 1 else 0) +
      (if f2.1 = v ∨ f2.2 = v then 1 else 0) := by
  have h2' : o2 ∈ E.erase o1 := Finset.mem_erase.2 ⟨fun hh => h12 hh.symm, h2⟩
  have hf1' : f1 ∉ (E.erase o1).erase o2 :=
    fun hc => hf1 (Finset.mem_of_mem_erase (Finset.mem_of_mem_erase hc))
  have hf2' : f2 ∉ insert f1 ((E.erase o1).erase o2) := by
    intro hc
    rcases Finset.mem_insert.1 hc with h | h
    · exact hff h.symm
    · exact hf2 (Finset.mem_of_mem_erase (Finset.mem_of_mem_erase h))
  have e1 := degIn_insert _ f2 v hf2'
  have e2 := degIn_insert _ f1 v hf1'
  have e3 := degIn_erase E o1 v h1
  have e4 := degIn_erase _ o2 v h2'
  omega

theorem card_rewire (E : Finset (ℕ × ℕ)) (o1 o2 f1 f2 : ℕ × ℕ)
    (h1 : o1 ∈ E) (h2 : o2 ∈ E) (h12 : o1 ≠ o2)
    (hf1 : f1 ∉ E) (hf2 : f2 ∉ E) (hff : f1 ≠ f2) :
    (insert f2 (insert f1 ((E.erase o1).erase o2))).card = E.card ∧
    ((insert f2 (insert f1 ((E.erase o1).erase o2))) \ E).card = 2 := by
  have h2' : o2 ∈ E.erase o1 := Finset.mem_erase.2 ⟨fun hh => h12 hh.symm, h2⟩
  have hf1' : f1 ∉ (E.erase o1).erase o2 :=
    fun hc => hf1 (Finset.mem_of_mem_erase (Finset.mem_of_mem_erase hc))
  have hf2' : f2 ∉ insert f1 ((E.erase o1).erase o2) := by
    intro hc
    rcases Finset.mem_insert.1 hc with h | h
    · exact hff h.symm
    · exact hf2 (Finset.mem_of_mem_erase (Finset.mem_of_mem_erase h))
  constructor
  · rw [Finset.card_insert_of_not_mem hf2', Finset.card_insert_of_not_mem hf1',
        Finset.card_erase_of_mem h2', Finset.card_erase_of_mem h1]
    have : 1 < E.card := Finset.one_lt_card.2 ⟨o1, h1, o2, h2, h12⟩
    omega
  · have hset : (insert f2 (insert f1 ((E.erase o1).erase o2))) \ E
        = {f1, f2} := by
      ext x
      simp only [Finset.mem_sdiff, Finset.mem_insert, Finset.mem_erase,
        Finset.mem_singleton]
      constructor
      · rintro ⟨hx, hxE⟩
        rcases hx with rfl | rfl | ⟨hne2, hne1, hxE'⟩
        · exact Or.inr rfl
        · exact Or.inl rfl
        · exact absurd hxE' hxE
      · rintro (rfl | rfl)
        · exact ⟨Or.inr (Or.inl rfl), hf1⟩
        · exact ⟨Or.inl rfl, hf2⟩
    rw [hset, Finset.card_insert_of_not_mem (by simpa using hff),
        Finset.card_singleton]

theorem four_distinct (a b c d : ℕ) (h : ({a, b, c, d} : Finset ℕ).card = 4) :
    a ≠ b ∧ a ≠ c ∧ a ≠ d ∧ b ≠ c ∧ b ≠ d ∧ c ≠ d := by
  have h3 : ∀ x y z : ℕ, ({x, y, z} : Finset ℕ).card ≤ 3 := by
    intro x y z
    have h1 := Finset.card_insert_le x ({y, z} : Finset ℕ)
    have h2 := Finset.card_insert_le y ({z} : Finset ℕ)
    simp only [Finset.card_singleton] at h1 h2 ⊢
    omega
  have hstep : ∀ x y z : ℕ, ({a, b, c, d} : Finset ℕ) ⊆ {x, y, z} → False := by
    intro x y z hsub
    have := Finset.card_le_card hsub
    have := h3 x y z
    omega
  refine ⟨?_, ?_, ?_, ?_, ?_, ?_⟩ <;> intro heq
  · exact hstep b c d (by intro x hx; simp at hx ⊢; omega)
  · exact hstep b c d (by intro x hx; simp at hx ⊢; omega)
  · exact hstep b c d (by intro x hx; simp at hx ⊢; omega)
  · exact hstep a c d (by intro x hx; simp at hx ⊢; omega)
  · exact hstep a c d (by intro x hx; simp at hx ⊢; omega)
  · exact hstep a b c (by intro x hx; simp at hx ⊢; omega)

theorem ite_inc_key (u w v : ℕ) :
    (if (edgeKey u w).1 = v ∨ (edgeKey u w).2 = v then (1 : ℕ) else 0) =
    (if u = v ∨ w = v then 1 else 0) := by
  unfold edgeKey
  split <;> split_ifs <;> simp_all

theorem edgeKey_ne (u w x y : ℕ) (h : (u ≠ x ∧ u ≠ y) ∨ (w ≠ x ∧ w ≠ y)) :
    edgeKey u w ≠ edgeKey x y := by
  unfold edgeKey
  intro hc
  split_ifs at hc <;> simp only [Prod.mk.injEq] at hc <;> omega

/-- Claim C2: on a canonical simple edge set, whatever two edges the RNG
picked, `_two_switch` leaves every vertex degree unchanged; when it
returns `True` the edge count is unchanged and the two added edges were
absent before the move (the set difference new-minus-old has exactly two
elements). -/
theorem two_switch_degree_invariant (E : Finset (ℕ × ℕ)) (e1 e2 : ℕ × ℕ)
    (hcan : ∀ e ∈ E, e.1 < e.2) (h1 : e1 ∈ E) (h2 : e2 ∈ E) :
    (∀ v, degIn (two_switch E e1 e2).2 v = degIn E v) ∧
    ((two_switch E e1 e2).1 = true →
      (two_switch E e1 e2).2.card = E.card ∧
      ((two_switch E e1 e2).2 \ E).card = 2) := by
  have hk1 : edgeKey e1.1 e1.2 = e1 := by
    unfold edgeKey; rw [if_pos (hcan e1 h1)]
  have hk2 : edgeKey e2.1 e2.2 = e2 := by
    unfold edgeKey; rw [if_pos (hcan e2 h2)]
  unfold two_switch
  rw [hk1, hk2]
  split_ifs with hlt h4 hb1 hb2
  · exact ⟨fun v => rfl, fun hc => hc.elim⟩
  · exact ⟨fun v => rfl, fun hc => hc.elim⟩
  · have hd := four_distinct e1.1 e1.2 e2.1 e2.2 (by omega)
    obtain ⟨d1, d2, d3, d4, d5, d6⟩ := hd
    have he12 : e1 ≠ e2 := fun heq => d2 (by rw [heq])
    have hff : edgeKey e1.1 e2.1 ≠ edgeKey e1.2 e2.2 :=
      edgeKey_ne _ _ _ _ (Or.inl ⟨d1, d3⟩)
    refine ⟨fun v => ?_, fun _ =>
      card_rewire E e1 e2 _ _ h1 h2 he12 hb1.1 hb1.2 hff⟩
    dsimp only
    have key := degIn_rewire E e1 e2 (edgeKey e1.1 e2.1) (edgeKey e1.2 e2.2)
      h1 h2 he12 hb1.1 hb1.2 hff v
    rw [ite_inc_key, ite_inc_key] at key
    split_ifs at key <;> omega
  · have hd := four_distinct e1.1 e1.2 e2.1 e2.2 (by omega)
    obtain ⟨d1, d2, d3, d4, d5, d6⟩ := hd
    have he12 : e1 ≠ e2 := fun heq => d2 (by rw [heq])
    have hff : edgeKey e1.1 e2.2 ≠ edgeKey e1.2 e2.1 :=
      edgeKey_ne _ _ _ _ (Or.inl ⟨d1, d2⟩)
    refine ⟨fun v => ?_, fun _ =>
      card_rewire E e1 e2 _ _ h1 h2 he12 hb2.1 hb2.2 hff⟩
    dsimp only
    have key := degIn_rewire E e1 e2 (edgeKey e1.1 e2.2) (edgeKey e1.2 e2.1)
      h1 h2 he12 hb2.1 hb2.2 hff v
    rw [ite_inc_key, ite_inc_key] at key
    split_ifs at key <;> omega
  · exact ⟨fun v => rfl, fun hc => hc.elim⟩

/-- Witness for C2 on the 4-cycle degree situation: the two disjoint edges
of a perfect matching are rewired. -/
theorem two_switch_degree_invariant_witness :
    (∀ v, degIn (two_switch {(0, 1), (2, 3)} (0, 1) (2, 3)).2 v =
      degIn {(0, 1), (2, 3)} v) ∧
    ((two_switch {(0, 1), (2, 3)} (0, 1) (2, 3)).1 = true →
      (two_switch {(0, 1), (2, 3)} (0, 1) (2, 3)).2.card =
        ({(0, 1), (2, 3)} : Finset (ℕ × ℕ)).card ∧
      ((two_switch {(0, 1), (2, 3)} (0, 1) (2, 3)).2 \ {(0, 1), (2, 3)}).card
        = 2) :=
  two_switch_degree_invariant {(0, 1), (2, 3)} (0, 1) (2, 3)
    (by decide) (by decide) (by decide)

/-- Claim C10: whenever `_two_switch` returns `False` (too few edges, the
four endpoints are not distinct, or both rewiring orientations are
blocked), the edge set is left exactly unchanged. -/
theorem two_switch_failure_unchanged (E : Finset (ℕ × ℕ)) (e1 e2 : ℕ × ℕ)
    (h : (two_switch E e1 e2).1 = false) : (two_switch E e1 e2).2 = E := by
  unfold two_switch at h ⊢
  split_ifs at h ⊢ <;> rfl

/-- Witness for C10: on an empty edge set the move fails and the set is
returned unchanged. -/
theorem two_switch_failure_unchanged_witness :
    (two_switch (∅ : Finset (ℕ × ℕ)) (0, 1) (2, 3)).2 = ∅ :=
  two_switch_failure_unchanged ∅ (0, 1) (2, 3) (by decide)

/-! ## Discovery detector (src/core/services/discovery.py)

The Django store is modelled by explicit lists: `runs` in creation order
and `discs` (Discoveries) in creation order, so `order_by(-created_at)
.first()` is the last matching list element.  `order_by(a, b).first()` is
modelled as the head of a stable sort, Python floats as exact rationals
(the float literal `1e-9` as the exact rational `1/10^9`). -/

structure RunRec where
  algorithm : String
  degrees_hash : String
  objective_value : Option ℚ
  time_ms : ℤ
  triangles : Option ℤ
  avg_path_len : Option ℚ
  clustering : Option ℚ
  is_connected : Option Bool
  objective_name : Option String
deriving DecidableEq

structure DiscoveryRec where
  degrees_hash : String
  mode : String
  objective_name : String
  prev_best_value : Option ℚ
  new_best_value : ℚ
  improvement : Option ℚ
  anomaly_flags : List String
  note : String
deriving DecidableEq

/-- Model of `_better` of discovery.py. -/
def better (new_val old_val : ℚ) (mode : String) (eps : ℚ) : Bool :=
  if mode = "min" then new_val < old_val - eps else old_val + eps < new_val

/-- The queryset of `_baseline_stats`: Runs with the given fingerprint
whose algorithm tag is in `["greedy", "exact"]`. -/
def baselineRuns (runs : List RunRec) (h : String) : List RunRec :=
  runs.filter (fun r => r.degrees_hash = h ∧
    r.algorithm ∈ (["greedy", "exact"] : List String))

/-- Python `sorted(l)[len(l) // 2] if l else None`: the upper-middle
element (`d` is only a junk default for the provably in-range index). -/
def upperMedian {α : Type} [LinearOrder α] (d : α) (l : List α) : Option α :=
  if l = [] then none else some ((List.insertionSort (· ≤ ·) l).getD (l.length / 2) d)

/-- Model of `_baseline_stats`: upper medians of triangles, APL and
clustering over the greedy/exact baseline runs. -/
def baseline_stats (runs : List RunRec) (h : String) :
    Option ℤ × Option ℚ × Option ℚ :=
  let qs := baselineRuns runs h
  (upperMedian 0 (qs.filterMap (fun r => r.triangles)),
   upperMedian 0 (qs.filterMap (fun r => r.avg_path_len)),
   upperMedian 0 (qs.filterMap (fun r => r.clustering)))

/-- Model of `_anomaly_flags`.  A baseline median participates only when
it is both non-`None` and truthy (Python `and base[...]` skips the flag
pair when the median is `None` or zero). -/
def anomaly_flags (run : RunRec) (base : Option ℤ × Option ℚ × Option ℚ)
    (tri_ratio apl_ratio cl_ratio : ℚ) : List String :=
  (match run.triangles, base.1 with
   | some t, some b =>
     if b ≠ 0 then
       (if (t : ℚ) < (b : ℚ) * tri_ratio then ["LOW_TRIANGLES"] else []) ++
       (if (b : ℚ) / max tri_ratio ((1 : ℚ)/1000000000) < (t : ℚ) then
          ["HIGH_TRIANGLES"] else [])
     else []
   | _, _ => []) ++
  (match run.avg_path_len, base.2.1 with
   | some a, some b =>
     if b ≠ 0 then
       (if b * apl_ratio < a then ["HIGH_APL"] else []) ++
       (if a < b / max apl_ratio ((1 : ℚ)/1000000000) then ["LOW_APL"] else [])
     else []
   | _, _ => []) ++
  (match run.clustering, base.2.2 with
   | some c, some b =>
     if b ≠ 0 then
       (if c < b * cl_ratio then ["LOW_CLUSTERING"] else []) ++
       (if b / max cl_ratio ((1 : ℚ)/1000000000) < c then
          ["HIGH_CLUSTERING"] else [])
     else []
   | _, _ => []) ++
  (if run.is_connected = some false then ["DISCONNECTED"] else [])

/-- Ordering used for `order_by("objective_value", "time_ms")` (mode
`min`); all compared runs have non-null objectives. -/
def runLeMin (r1 r2 : RunRec) : Prop :=
  r1.objective_value.getD 0 < r2.objective_value.getD 0 ∨
  (r1.objective_value.getD 0 = r2.objective_value.getD 0 ∧
    r1.time_ms ≤ r2.time_ms)

/-- Ordering used for `order_by("-objective_value", "time_ms")`. -/
def runLeMax (r1 r2 : RunRec) : Prop :=
  r2.objective_value.getD 0 < r1.objective_value.getD 0 ∨
  (r1.objective_value.getD 0 = r2.objective_value.getD 0 ∧
    r1.time_ms ≤ r2.time_ms)

instance : DecidableRel runLeMin := fun a b => by
  unfold runLeMin; infer_instance

instance : DecidableRel runLeMax := fun a b => by
  unfold runLeMax; infer_instance

/-- The best run of `try_create_discovery` (head of the ordered queryset
of runs with this fingerprint and a non-null objective). -/
def bestRun (runs : List RunRec) (h mode : String) : Option RunRec :=
  let qs := runs.filter (fun r => r.degrees_hash = h ∧ r.objective_value ≠ none)
  if mode = "min" then (List.insertionSort runLeMin qs).head?
  else (List.insertionSort runLeMax qs).head?

/-- The most recent Discovery for `(fingerprint, mode)`. -/
def prevDiscovery (discs : List DiscoveryRec) (h mode : String) :
    Option DiscoveryRec :=
  (discs.filter (fun dd => dd.degrees_hash = h ∧ dd.mode = mode)).getLast?

/-- Model of `try_create_discovery` of discovery.py.  In the source
`prev_val` is `prev.new_best_value` when a previous Discovery exists and
`None` otherwise; since `new_best_value` is never null, matching on the
previous Discovery itself is the same case split. -/
def try_create_discovery (runs : List RunRec) (discs : List DiscoveryRec)
    (degrees_hash mode : String) (eps tri_ratio apl_ratio cl_ratio : ℚ) :
    Option DiscoveryRec :=
  if runs.filter (fun r =>
      r.degrees_hash = degrees_hash ∧ r.objective_value ≠ none) = [] then none
  else
    match bestRun runs degrees_hash mode with
    | none => none
    | some best =>
      match best.objective_value with
      | none => none
      | some newv =>
        match prevDiscovery discs degrees_hash mode with
        | none => some {
            degrees_hash := degrees_hash, mode := mode,
            objective_name := best.objective_name.getD "spectral_radius",
            prev_best_value := none, new_best_value := newv,
            improvement := none,
            anomaly_flags := anomaly_flags best
              (baseline_stats runs degrees_hash) tri_ratio apl_ratio cl_ratio,
            note := "FIRST for this degrees_hash/mode." }
        | some prev =>
          if better newv prev.new_best_value mode eps then
            some {
              degrees_hash := degrees_hash, mode := mode,
              objective_name := best.objective_name.getD "spectral_radius",
              prev_best_value := some prev.new_best_value,
              new_best_value := newv,
              improvement := some (if mode = "min"
                then prev.new_best_value - newv else newv - prev.new_best_value),
              anomaly_flags := anomaly_flags best
                (baseline_stats runs degrees_hash) tri_ratio apl_ratio cl_ratio,
              note := "NEW BEST." }
          else if 2 ≤ (anomaly_flags best
              (baseline_stats runs degrees_hash) tri_ratio apl_ratio
              cl_ratio).length then
            some {
              degrees_hash := degrees_hash, mode := mode,
              objective_name := best.objective_name.getD "spectral_radius",
              prev_best_value := some prev.new_best_value,
              new_best_value := newv,
              improvement := some 0,
              anomaly_flags := anomaly_flags best
                (baseline_stats runs degrees_hash) tri_ratio apl_ratio cl_ratio,
              note := "ANOMALY without new record." }
          else none

theorem bestRun_exists (runs : List RunRec) (h mode : String)
    (hex : runs.filter
      (fun r => r.degrees_hash = h ∧ r.objective_value ≠ none) ≠ []) :
    ∃ best, bestRun runs h mode = some best ∧
      best ∈ runs.filter
        (fun r => r.degrees_hash = h ∧ r.objective_value ≠ none) := by
  unfold bestRun
  by_cases hm : mode = "min"
  · rw [if_pos hm]
    cases hs : List.insertionSort runLeMin (runs.filter
        (fun r => r.degrees_hash = h ∧ r.objective_value ≠ none)) with
    | nil =>
      have hperm := List.perm_insertionSort runLeMin (runs.filter
        (fun r => r.degrees_hash = h ∧ r.objective_value ≠ none))
      rw [hs] at hperm
      exact absurd hperm.symm.eq_nil hex
    | cons b t =>
      refine ⟨b, rfl, ?_⟩
      have hperm := List.perm_insertionSort runLeMin (runs.filter
        (fun r => r.degrees_hash = h ∧ r.objective_value ≠ none))
      exact hperm.mem_iff.1 (by rw [hs]; exact List.mem_cons_self b t)
  · rw [if_neg hm]
    cases hs : List.insertionSort runLeMax (runs.filter
        (fun r => r.degrees_hash = h ∧ r.objective_value ≠ none)) with
    | nil =>
      have hperm := List.perm_insertionSort runLeMax (runs.filter
        (fun r => r.degrees_hash = h ∧ r.objective_value ≠ none))
      rw [hs] at hperm
      exact absurd hperm.symm.eq_nil hex
    | cons b t =>
      refine ⟨b, rfl, ?_⟩
      have hperm := List.perm_insertionSort runLeMax (runs.filter
        (fun r => r.degrees_hash = h ∧ r.objective_value ≠ none))
      exact hperm.mem_iff.1 (by rw [hs]; exact List.mem_cons_self b t)

/-- Claim C4: with at least one stored Run carrying the fingerprint and a
non-null objective, and a nonnegative epsilon: if no previous Discovery
exists for `(fingerprint, mode)` a Discovery with null improvement is
created (the FIRST case); otherwise a Discovery is created iff the best
run's objective beats the previous `new_best_value` by more than epsilon
under the mode (improvement `|prev - new|`) or the best run carries at
least two anomaly flags (improvement `0`); in every other case nothing is
created. -/
theorem try_create_discovery_spec (runs : List RunRec)
    (discs : List DiscoveryRec) (h mode : String)
    (eps tri_ratio apl_ratio cl_ratio : ℚ)
    (hex : runs.filter
      (fun r => r.degrees_hash = h ∧ r.objective_value ≠ none) ≠ [])
    (heps : 0 ≤ eps) :
    ∃ best newv,
      bestRun runs h mode = some best ∧
      best.objective_value = some newv ∧
      (prevDiscovery discs h mode = none →
        ∃ dd, try_create_discovery runs discs h mode eps tri_ratio apl_ratio
            cl_ratio = some dd ∧
          dd.improvement = none ∧ dd.new_best_value = newv) ∧
      (∀ prev, prevDiscovery discs h mode = some prev →
        ((try_create_discovery runs discs h mode eps tri_ratio apl_ratio
            cl_ratio).isSome = true ↔
          (better newv prev.new_best_value mode eps = true ∨
           2 ≤ (anomaly_flags best (baseline_stats runs h) tri_ratio
             apl_ratio cl_ratio).length)) ∧
        (better newv prev.new_best_value mode eps = true →
          ∃ dd, try_create_discovery runs discs h mode eps tri_ratio
              apl_ratio cl_ratio = some dd ∧
            dd.improvement = some |prev.new_best_value - newv|) ∧
        (better newv prev.new_best_value mode eps = false →
          2 ≤ (anomaly_flags best (baseline_stats runs h) tri_ratio apl_ratio
            cl_ratio).length →
          ∃ dd, try_create_discovery runs discs h mode eps tri_ratio
              apl_ratio cl_ratio = some dd ∧
            dd.improvement = some 0 ∧
            dd.anomaly_flags = anomaly_flags best (baseline_stats runs h)
              tri_ratio apl_ratio cl_ratio)) := by
  obtain ⟨best, hbest, hmem⟩ := bestRun_exists runs h mode hex
  have hprops := (List.mem_filter.1 hmem).2
  simp only [decide_eq_true_eq] at hprops
  obtain ⟨hhash, hnn⟩ := hprops
  obtain ⟨newv, hval⟩ : ∃ nv, best.objective_value = some nv := by
    cases hnv : best.objective_value with
    | none => exact absurd hnv hnn
    | some v => exact ⟨v, rfl⟩
  have hred : ∀ X : Option DiscoveryRec,
      (match prevDiscovery discs h mode with
        | none => X
        | some prev => X) = X := fun X => by cases prevDiscovery discs h mode <;> rfl
  refine ⟨best, newv, hbest, hval, ?_, ?_⟩
  · intro hprev
    unfold try_create_discovery
    rw [if_neg hex, hbest]
    dsimp only
    rw [hval]
    dsimp only
    rw [hprev]
    exact ⟨_, rfl, rfl, rfl⟩
  · intro prev hprev
    unfold try_create_discovery
    rw [if_neg hex, hbest]
    dsimp only
    rw [hval]
    dsimp only
    rw [hprev]
    dsimp only
    by_cases hbet : better newv prev.new_best_value mode eps = true
    · rw [if_pos hbet]
      refine ⟨by simp [hbet], fun _ => ⟨_, rfl, ?_⟩, fun hb2 => absurd hbet (by simp [hb2])⟩
      have habs : |prev.new_best_value - newv| =
          if mode = "min" then prev.new_best_value - newv
          else newv - prev.new_best_value := by
        unfold better at hbet
        by_cases hm : mode = "min"
        · rw [if_pos hm] at hbet ⊢
          have : newv < prev.new_best_value - eps := by
            simpa [hm] using of_decide_eq_true hbet
          rw [abs_of_pos (by linarith)]
        · rw [if_neg hm] at hbet ⊢
          have : prev.new_best_value + eps < newv := by
            simpa [hm] using of_decide_eq_true hbet
          rw [abs_of_neg (by linarith), neg_sub]
      rw [habs]
    · rw [if_neg hbet]
      have hbet' : better newv prev.new_best_value mode eps = false :=
        Bool.not_eq_true _ ▸ (by simpa using hbet)
      by_cases hfl : 2 ≤ (anomaly_flags best (baseline_stats runs h)
          tri_ratio apl_ratio cl_ratio).length
      · rw [if_pos hfl]
        exact ⟨by simp [hfl], fun hb => absurd hb hbet,
          fun _ _ => ⟨_, rfl, rfl, rfl⟩⟩
      · rw [if_neg hfl]
        refine ⟨⟨fun hc => Bool.noConfusion hc, ?_⟩,
          fun hb => absurd hb hbet, fun _ hf => absurd hf hfl⟩
        rintro (hb | hf)
        · exact absurd hb hbet
        · exact absurd hf hfl

/-- Witness for C4: one greedy run with fingerprint `"fp"`, no previous
Discovery, so the FIRST branch fires. -/
theorem try_create_discovery_spec_witness :
    ∃ best newv,
      bestRun [RunRec.mk "greedy" "fp" (some 2) 5 (some 0) none (some 0)
        (some true) (some "spectral_radius")] "fp" "min" = some best ∧
      best.objective_value = some newv ∧
      (prevDiscovery [] "fp" "min" = none →
        ∃ dd, try_create_discovery [RunRec.mk "greedy" "fp" (some 2) 5
            (some 0) none (some 0) (some true) (some "spectral_radius")] []
            "fp" "min" 0 (1/2) (5/4) (7/10) = some dd ∧
          dd.improvement = none ∧ dd.new_best_value = newv) ∧
      (∀ prev, prevDiscovery [] "fp" "min" = some prev →
        ((try_create_discovery [RunRec.mk "greedy" "fp" (some 2) 5 (some 0)
            none (some 0) (some true) (some "spectral_radius")] [] "fp" "min"
            0 (1/2) (5/4) (7/10)).isSome = true ↔
          (better newv prev.new_best_value "min" 0 = true ∨
           2 ≤ (anomaly_flags best (baseline_stats [RunRec.mk "greedy" "fp"
             (some 2) 5 (some 0) none (some 0) (some true)
             (some "spectral_radius")] "fp") (1/2) (5/4) (7/10)).length)) ∧
        (better newv prev.new_best_value "min" 0 = true →
          ∃ dd, try_create_discovery [RunRec.mk "greedy" "fp" (some 2) 5
              (some 0) none (some 0) (some true) (some "spectral_radius")] []
              "fp" "min" 0 (1/2) (5/4) (7/10) = some dd ∧
            dd.improvement = some |prev.new_best_value - newv|) ∧
        (better newv prev.new_best_value "min" 0 = false →
          2 ≤ (anomaly_flags best (baseline_stats [RunRec.mk "greedy" "fp"
            (some 2) 5 (some 0) none (some 0) (some true)
            (some "spectral_radius")] "fp") (1/2) (5/4) (7/10)).length →
          ∃ dd, try_create_discovery [RunRec.mk "greedy" "fp" (some 2) 5
              (some 0) none (some 0) (some true) (some "spectral_radius")] []
              "fp" "min" 0 (1/2) (5/4) (7/10) = some dd ∧
            dd.improvement = some 0 ∧
            dd.anomaly_flags = anomaly_flags best (baseline_stats
              [RunRec.mk "greedy" "fp" (some 2) 5 (some 0) none (some 0)
                (some true) (some "spectral_radius")] "fp")
              (1/2) (5/4) (7/10))) :=
  try_create_discovery_spec
    [RunRec.mk "greedy" "fp" (some 2) 5 (some 0) none (some 0) (some true)
      (some "spectral_radius")] [] "fp" "min" 0 (1/2) (5/4) (7/10)
    (by decide) (by decide)

/-! ## Autosearch run tags (src/core/services/autosearch.py, `_run_job`)

The orchestrator persists Runs under exactly these algorithm tags (the
five `_save_run_from_result` call sites): greedy baselines, randomized
baselines, exact backtracking (tagged `"exact_realization"`), hill climb
and simulated annealing. -/

def autosearch_run_tags : List String :=
  ["greedy", "random", "exact_realization", "hc", "sa"]

/-- Claim C9: in any store populated solely by the orchestrator, the
baseline query of `_baseline_stats` (algorithm in `{greedy, exact}`)
matches exactly the greedy-tagged runs: the tag `"exact_realization"`
used for exact backtracking results never matches, so the anomaly
baseline medians are computed only from greedy runs. -/
theorem exact_runs_never_in_baseline (runs : List RunRec) (h : String)
    (hruns : ∀ r ∈ runs, r.algorithm ∈ autosearch_run_tags) :
    "exact_realization" ∈ autosearch_run_tags ∧
    "exact_realization" ∉ (["greedy", "exact"] : List String) ∧
    baselineRuns runs h =
      runs.filter (fun r => r.degrees_hash = h ∧ r.algorithm = "greedy") ∧
    baseline_stats runs h =
      baseline_stats (runs.filter (fun r => r.algorithm = "greedy")) h := by
  have hkey : ∀ s ∈ autosearch_run_tags,
      ((s ∈ (["greedy", "exact"] : List String)) ↔ s = "greedy") := by decide
  have hfil : baselineRuns runs h =
      runs.filter (fun r => r.degrees_hash = h ∧ r.algorithm = "greedy") := by
    unfold baselineRuns
    apply List.filter_congr
    intro r hr
    have hiff := hkey r.algorithm (hruns r hr)
    by_cases h1 : r.degrees_hash = h
    · by_cases h2 : r.algorithm = "greedy"
      · simp [h1, h2, hiff.mpr h2]
      · have hm : ¬ r.algorithm ∈ (["greedy", "exact"] : List String) :=
          fun hm => h2 (hiff.mp hm)
        simp [h1, h2, hm]
    · simp [h1]
  have hfil2 : baselineRuns (runs.filter
      (fun r => r.algorithm = "greedy")) h =
      runs.filter (fun r => r.degrees_hash = h ∧ r.algorithm = "greedy") := by
    unfold baselineRuns
    rw [List.filter_filter]
    apply List.filter_congr
    intro r hr
    have hiff := hkey r.algorithm (hruns r hr)
    by_cases h1 : r.degrees_hash = h
    · by_cases h2 : r.algorithm = "greedy"
      · simp [h1, h2, hiff.mpr h2]
      · have hm : ¬ r.algorithm ∈ (["greedy", "exact"] : List String) :=
          fun hm => h2 (hiff.mp hm)
        simp [h1, h2, hm]
    · simp [h1]
  refine ⟨by decide, by decide, hfil, ?_⟩
  unfold baseline_stats
  rw [hfil, hfil2]

/-- Witness for C9: a store holding one `exact_realization` run and one
greedy run for fingerprint `"fp"`. -/
theorem exact_runs_never_in_baseline_witness :
    "exact_realization" ∈ autosearch_run_tags ∧
    "exact_realization" ∉ (["greedy", "exact"] : List String) ∧
    baselineRuns [RunRec.mk "exact_realization" "fp" (some 2) 5 (some 7) none
        (some 0) (some true) none,
      RunRec.mk "greedy" "fp" (some 3) 4 (some 1) none (some 0) (some true)
        none] "fp" =
      [RunRec.mk "exact_realization" "fp" (some 2) 5 (some 7) none (some 0)
          (some true) none,
        RunRec.mk "greedy" "fp" (some 3) 4 (some 1) none (some 0) (some true)
          none].filter
        (fun r => r.degrees_hash = "fp" ∧ r.algorithm = "greedy") ∧
    baseline_stats [RunRec.mk "exact_realization" "fp" (some 2) 5 (some 7)
        none (some 0) (some true) none,
      RunRec.mk "greedy" "fp" (some 3) 4 (some 1) none (some 0) (some true)
        none] "fp" =
      baseline_stats ([RunRec.mk "exact_realization" "fp" (some 2) 5 (some 7)
          none (some 0) (some true) none,
        RunRec.mk "greedy" "fp" (some 3) 4 (some 1) none (some 0) (some true)
          none].filter (fun r => r.algorithm = "greedy")) "fp" :=
  exact_runs_never_in_baseline
    [RunRec.mk "exact_realization" "fp" (some 2) 5 (some 7) none (some 0)
        (some true) none,
      RunRec.mk "greedy" "fp" (some 3) 4 (some 1) none (some 0) (some true)
        none] "fp" (by decide)

/-! ## Degree generator (src/core/services/generator.py, `generate_fixed_sum`)

`rnd.randrange(0, n)` is modelled as `stream pos % n`, consuming one
stream position per call.  The float expression `int(d * (target / s))`
is modelled exactly over `Rat` (at the inputs analysed below the float
arithmetic is exact, e.g. `scale = 2.0`).  The two repair `while` loops
of the source have no iteration bound, so they run on explicit `fuel`;
`none` means the loop did not finish within `fuel` iterations — a result
of `none` for every `fuel` is non-termination of the source. -/

def repair_up (n : ℕ) (target : ℤ) (stream : ℕ → ℕ) :
    ℕ → ℕ → List ℤ → ℤ → Option (ℕ × List ℤ × ℤ)
  | fuel, pos, deg, s =>
    if s < target then
      match fuel with
      | 0 => none
      | fuel + 1 =>
        if deg.getD (stream pos % n) 0 < (n : ℤ) - 1 then
          repair_up n target stream fuel (pos + 1)
            (deg.set (stream pos % n) (deg.getD (stream pos % n) 0 + 1)) (s + 1)
        else repair_up n target stream fuel (pos + 1) deg s
    else some (pos, deg, s)

def repair_down (n : ℕ) (target : ℤ) (stream : ℕ → ℕ) :
    ℕ → ℕ → List ℤ → ℤ → Option (ℕ × List ℤ × ℤ)
  | fuel, pos, deg, s =>
    if target < s then
      match fuel with
      | 0 => none
      | fuel + 1 =>
        if 0 < deg.getD (stream pos % n) 0 then
          repair_down n target stream fuel (pos + 1)
            (deg.set (stream pos % n) (deg.getD (stream pos % n) 0 - 1)) (s - 1)
        else repair_down n target stream fuel (pos + 1) deg s
    else some (pos, deg, s)

def gfs_loop (n : ℕ) (target : ℤ) (stream : ℕ → ℕ) (fuel : ℕ) :
    ℕ → ℕ → Option (Except String (List ℤ))
  | 0, _ => some (.error "generate_fixed_sum: max_attempts exceeded")
  | att + 1, pos =>
    let deg0 := (List.range n).map (fun i => ((stream (pos + i) % n : ℕ) : ℤ))
    let start : ℕ × List ℤ × ℤ :=
      if deg0.sum = 0 then
        (pos + n + 1, deg0.set (stream (pos + n) % n) 1, 1)
      else (pos + n, deg0, deg0.sum)
    let scaled := start.2.1.map (fun d =>
      min ((n : ℤ) - 1) ⌊(d : ℚ) * ((target : ℚ) / (start.2.2 : ℚ))⌋)
    match repair_up n target stream fuel start.1 scaled scaled.sum with
    | none => none
    | some (pos2, deg2, s2) =>
      match repair_down n target stream fuel pos2 deg2 s2 with
      | none => none
      | some (pos3, deg3, _) =>
        if deg3.sum = target ∧ (∀ d ∈ deg3, 0 ≤ d ∧ d ≤ (n : ℤ) - 1) then
          some (.ok deg3)
        else gfs_loop n target stream fuel att pos3

/-- Model of `generate_fixed_sum(n, k, seed, max_attempts)`; `target` is
`2 * k` and the PRNG seeded by `seed` is the draw stream. -/
def generate_fixed_sum (n k : ℕ) (stream : ℕ → ℕ) (max_attempts : ℕ)
    (fuel : ℕ) : Option (Except String (List ℤ)) :=
  gfs_loop n (2 * (k : ℤ)) stream fuel max_attempts 0

theorem repair_up_stuck_n1 (stream : ℕ → ℕ) :
    ∀ fuel pos, repair_up 1 2 stream fuel pos [0] 0 = none := by
  intro fuel
  induction fuel with
  | zero =>
    intro pos
    unfold repair_up
    norm_num
  | succ fuel ih =>
    intro pos
    unfold repair_up
    simp only [Nat.mod_one, List.getD]
    norm_num
    exact ih (pos + 1)

/-- Claim C5 (failing input): at `n = 1`, `k = 1` the repair loop of
`generate_fixed_sum` can never increase the sum (the only entry is capped
at `n - 1 = 0` while the target is `2`), so for every draw stream, every
positive `max_attempts` and every loop fuel the function does not return:
the source spins forever instead of raising the attempts-exceeded error. -/
theorem generate_fixed_sum_diverges_n1_k1 (stream : ℕ → ℕ) (ma fuel : ℕ) :
    generate_fixed_sum 1 1 stream (ma + 1) fuel = none := by
  unfold generate_fixed_sum gfs_loop
  have h1 : ∀ x : ℕ, x % 1 = 0 := Nat.mod_one
  have hr1 : List.range 1 = [0] := rfl
  simp only [h1, hr1, List.map_cons, List.map_nil, Nat.cast_zero,
    List.sum_cons, List.sum_nil, List.set]
  norm_num
  rw [repair_up_stuck_n1 stream fuel 2]

/-! ## Degree-sequence realizers (src/core/services/rewrite.py)

`_havel_hakimi_realize` is parametrised by the shuffle oracle: for
`realize_greedy` the oracle is never consulted (`useShuf = false`, as for
`rnd=None` in the source); for `realize_random_greedy` the oracle stands
for `rnd.shuffle` at each step (`shuf c l` is the shuffled copy of `l` at
the `c`-th shuffle call — for the real PRNG always a permutation of `l`).
The outer `while True` loop terminates because every pass removes at
least 2 from the total remaining degree; it is run here on fuel
`sum(deg) + 1`, which therefore always suffices (the fuel error below is
unreachable for the real loop). -/

def normalize_deg (deg : List ℤ) : Except String (List ℤ) :=
  if deg.any (fun x => decide (x < 0)) then .error "degrees must be >= 0"
  else .ok deg

/-- Python `items.sort(reverse=True, key=lambda x: x[0])`: stable
descending order on the remaining degree. -/
def degGe (a b : ℤ × ℕ) : Prop := b.1 ≤ a.1

instance : DecidableRel degGe := fun a b => by
  unfold degGe; infer_instance

instance : IsTotal (ℤ × ℕ) degGe where
  total a b := le_total b.1 a.1

instance : IsTrans (ℤ × ℕ) degGe where
  trans _ _ _ hab hbc := le_trans hbc hab

/-- The `for idx in targets` loop inside `_havel_hakimi_realize`: connect
the popped head `v` to `items[idx]` for each target index, decrementing
that entry in place. -/
def hhStepInner (v : ℕ) : List ℕ → List (ℤ × ℕ) → Finset (ℕ × ℕ) →
    Except String (List (ℤ × ℕ) × Finset (ℕ × ℕ))
  | [], items, E => .ok (items, E)
  | idx :: rest, items, E =>
    match items[idx]? with
    | none => .error "index out of range"
    | some (dk, u) =>
      if dk ≤ 0 then .error "non-graphical (ran out of degree)"
      else if edgeKey v u ∈ E then
        .error "failed realization (would create multiedge)"
      else if v = u then .error "loop detected"
      else hhStepInner v rest (items.set idx (dk - 1, u))
        (insert (edgeKey v u) E)

def hhLoop (shuf : ℕ → List ℕ → List ℕ) (useShuf : Bool) :
    ℕ → ℕ → List (ℤ × ℕ) → Finset (ℕ × ℕ) → Except String (Finset (ℕ × ℕ))
  | _, 0, _, _ => .error "fuel exhausted (unreachable, see comment)"
  | step, fuel + 1, items, E =>
    match List.insertionSort degGe items with
    | [] => .error "index out of range"
    | (k, v) :: rest =>
      if k = 0 then .ok E
      else if k < 0 then .error "non-graphical (negative remainder)"
      else if (rest.length : ℤ) < k then
        .error "non-graphical (degree too large)"
      else
        match hhStepInner v
            (if useShuf = true ∧ 1 < k then shuf step (List.range k.toNat)
             else List.range k.toNat) rest E with
        | .error e => .error e
        | .ok (items2, E2) => hhLoop shuf useShuf (step + 1) fuel items2 E2

def havel_hakimi_realize (deg : List ℤ) (shuf : ℕ → List ℕ → List ℕ)
    (useShuf : Bool) : Except String (List (ℕ × ℕ)) :=
  match normalize_deg deg with
  | .error e => .error e
  | .ok d =>
    match hhLoop shuf useShuf 0 ((d.map Int.toNat).sum + 1)
        ((List.range d.length).map (fun i => (d.getD i 0, i))) ∅ with
    | .error e => .error e
    | .ok E => .ok (sortedEdges E)

def realize_greedy (deg : List ℤ) : Except String (List (ℕ × ℕ)) :=
  havel_hakimi_realize deg (fun _ l => l) false

def realize_random_greedy (shuf : ℕ → List ℕ → List ℕ) (deg : List ℤ) :
    Except String (List (ℕ × ℕ)) :=
  havel_hakimi_realize deg shuf true

/-! Exact backtracking realizer (`realize_backtracking`).  Its loop is
bounded by `max_steps` in the source (`steps > max_steps` raises), so the
fuel here is exactly `max_steps`. -/

def bump (d : List ℤ) (w : ℕ) (x : ℤ) : List ℤ :=
  d.set w (d.getD w 0 + x)

def can_add (d : List ℤ) (E : Finset (ℕ × ℕ)) (u v : ℕ) : Bool :=
  decide (0 < d.getD u 0) && decide (0 < d.getD v 0) &&
    decide (edgeKey u v ∉ E)

def btLoop (pairs : List (ℕ × ℕ)) :
    ℕ → List ℤ → Finset (ℕ × ℕ) → List (ℕ × (ℕ × ℕ) × (ℤ × ℤ)) → ℕ →
    Except String (Finset (ℕ × ℕ))
  | 0, _, _, _, _ => .error "backtracking limit exceeded"
  | fuel + 1, d, E, stack, idx =>
    if d.all (fun x => decide (x = 0)) then .ok E
    else if pairs.length ≤ idx then
      match stack with
      | [] => .error "non-graphical / no realization found"
      | (pidx, (u, v), _) :: stack2 =>
        btLoop pairs fuel (bump (bump d u 1) v 1) (E.erase (edgeKey u v))
          stack2 (pidx + 1)
    else
      match pairs.getD idx (0, 0) with
      | (u, v) =>
        if can_add d E u v then
          btLoop pairs fuel (bump (bump d u (-1)) v (-1))
            (insert (edgeKey u v) E)
            ((idx, (u, v), ((bump (bump d u (-1)) v (-1)).getD u 0,
              (bump (bump d u (-1)) v (-1)).getD v 0)) :: stack) 0
        else btLoop pairs fuel d E stack (idx + 1)

/-- Python `[(i, j) for i in range(n) for j in range(i + 1, n)]`. -/
def allPairs (n : ℕ) : List (ℕ × ℕ) :=
  (List.range n).flatMap (fun i =>
    ((List.range n).filter (fun j => decide (i < j))).map (fun j => (i, j)))

def btKey (d : List ℤ) (e : ℕ × ℕ) : ℤ :=
  max (d.getD e.1 0) (d.getD e.2 0)

/-- Stable descending order on `max(d[u], d[v])`, the candidate-pair
order of `realize_backtracking`. -/
def btGe (d : List ℤ) (a b : ℕ × ℕ) : Prop := btKey d b ≤ btKey d a

instance (d : List ℤ) : DecidableRel (btGe d) := fun a b => by
  unfold btGe; infer_instance

def realize_backtracking (deg : List ℤ)
    (shufPairs : List (ℕ × ℕ) → List (ℕ × ℕ)) (useShuf : Bool)
    (max_steps : ℕ) : Except String (List (ℕ × ℕ)) :=
  match normalize_deg deg with
  | .error e => .error e
  | .ok d =>
    if d.sum % 2 ≠ 0 then .error "non-graphical (sum of degrees odd)"
    else
      match btLoop (List.insertionSort (btGe d)
          (if useShuf then shufPairs (allPairs d.length)
           else allPairs d.length)) max_steps d ∅ [] 0 with
      | .error e => .error e
      | .ok E => .ok (sortedEdges E)

/-- Claim C6 (failing input): on the degree sequence `[1,1,1,1]` every
step of the randomized-greedy realizer has head demand `k = 1`, the
shuffle guard `k > 1` never fires, and the returned edge set equals the
deterministic greedy realization `[(0,1),(2,3)]` for EVERY shuffle
oracle (i.e. for every seed) — whereas a shuffled pool of the top
`max(k,3) = 3` vertices, as the claim describes, could also produce the
matchings `[(0,2),(1,3)]` or `[(0,3),(1,2)]`. -/
theorem realize_random_greedy_no_pool (shuf : ℕ → List ℕ → List ℕ) :
    realize_random_greedy shuf [1, 1, 1, 1] = .ok [(0, 1), (2, 3)] ∧
    realize_greedy [1, 1, 1, 1] = .ok [(0, 1), (2, 3)] :=
  ⟨rfl, rfl⟩

/-! ## Havel-Hakimi graphicality test (src/core/services/hh.py)

Each pass filters out non-positive entries, sorts descending, pops the
head `x` and decrements the next `x` entries.  Every pass removes at
least 2 from the total positive degree mass, so fuel `sum + 1` always
suffices; the `false` at fuel 0 is unreachable for the real loop. -/

def intGe (a b : ℤ) : Prop := b ≤ a

instance : DecidableRel intGe := fun a b => by
  unfold intGe; infer_instance

def hh_decFirst : ℕ → List ℤ → List ℤ
  | 0, l => l
  | _ + 1, [] => []
  | x + 1, v :: l => (v - 1) :: hh_decFirst x l

def hhTestLoop : ℕ → List ℤ → Bool
  | 0, _ => false
  | fuel + 1, d =>
    match List.insertionSort intGe (d.filter (fun x => decide (0 < x))) with
    | [] => true
    | x :: rest =>
      if x < 0 ∨ (rest.length : ℤ) < x then false
      else if ((hh_decFirst x.toNat rest).take x.toNat).any
          (fun y => decide (y < 0)) then false
      else hhTestLoop fuel (hh_decFirst x.toNat rest)

def is_graphical_havel_hakimi (deg : List ℤ) : Bool :=
  hhTestLoop ((deg.map Int.toNat).sum + 1) deg

/-! Bookkeeping for the Havel-Hakimi realizer proof.  `remaining items v`
is the remaining demand of vertex `v` in the working list `items` of
(remaining degree, vertex) pairs. -/

def remaining (items : List (ℤ × ℕ)) (v : ℕ) : ℤ :=
  ((items.filter (fun p => decide (p.2 = v))).map Prod.fst).sum

theorem remaining_perm {items items' : List (ℤ × ℕ)}
    (h : items.Perm items') (v : ℕ) :
    remaining items v = remaining items' v := by
  unfold remaining
  exact ((h.filter _).map Prod.fst).sum_eq

theorem remaining_cons (p : ℤ × ℕ) (t : List (ℤ × ℕ)) (v : ℕ) :
    remaining (p :: t) v =
      remaining t v + (if p.2 = v then p.1 else 0) := by
  unfold remaining
  by_cases hp : p.2 = v
  · simp [List.filter_cons, hp]
    ring
  · simp [List.filter_cons, hp]

theorem remaining_of_all_zero (items : List (ℤ × ℕ))
    (h : ∀ p ∈ items, p.1 = 0) (v : ℕ) : remaining items v = 0 := by
  induction items with
  | nil => rfl
  | cons p t ih =>
    rw [remaining_cons, ih (fun q hq => h q (List.mem_cons_of_mem p hq)),
      h p (List.mem_cons_self p t)]
    simp

theorem remaining_set (items : List (ℤ × ℕ)) (idx : ℕ) (dk : ℤ) (u : ℕ)
    (x : ℤ) (w : ℕ) (h : items[idx]? = some (dk, u)) :
    remaining (items.set idx (x, u)) w + (if w = u then dk else 0) =
    remaining items w + (if w = u then x else 0) := by
  induction items generalizing idx with
  | nil => simp at h
  | cons p t ih =>
    cases idx with
    | zero =>
      simp only [List.getElem?_cons_zero, Option.some.injEq] at h
      subst h
      simp only [List.set_cons_zero]
      rw [remaining_cons, remaining_cons]
      by_cases hw : w = u
      · simp [hw]
        ring
      · have : ¬ u = w := fun hc => hw hc.symm
        simp [hw, this]
    | succ k =>
      simp only [List.getElem?_cons_succ] at h
      simp only [List.set_cons_succ]
      rw [remaining_cons, remaining_cons]
      have := ih k h
      omega

theorem mapsnd_set (items : List (ℤ × ℕ)) (idx : ℕ) (dk : ℤ) (u : ℕ)
    (x : ℤ) (h : items[idx]? = some (dk, u)) :
    (items.set idx (x, u)).map Prod.snd = items.map Prod.snd := by
  induction items generalizing idx with
  | nil => rfl
  | cons p t ih =>
    cases idx with
    | zero =>
      simp only [List.getElem?_cons_zero, Option.some.injEq] at h
      subst h
      simp
    | succ k =>
      simp only [List.getElem?_cons_succ] at h
      simp only [List.set_cons_succ, List.map_cons]
      rw [ih k h]

theorem edgeKey_bounds (u v n : ℕ) (huv : u ≠ v) (hu : u < n) (hv : v < n) :
    (edgeKey u v).1 < (edgeKey u v).2 ∧ (edgeKey u v).2 < n := by
  unfold edgeKey
  split <;> constructor <;> simp <;> omega

theorem degList_cons (e : ℕ × ℕ) (t : List (ℕ × ℕ)) (v : ℕ) :
    degList (e :: t) v =
      degList t v + (if e.1 = v ∨ e.2 = v then 1 else 0) := by
  unfold degList
  by_cases hp : e.1 = v ∨ e.2 = v
  · simp [List.filter_cons, hp]
  · simp [List.filter_cons, hp]

theorem degList_handshake (E : List (ℕ × ℕ)) (n : ℕ)
    (hE : ∀ e ∈ E, e.1 < e.2 ∧ e.2 < n) :
    ∑ v ∈ Finset.range n, degList E v = 2 * E.length := by
  induction E with
  | nil => simp [degList]
  | cons e t ih =>
    have he := hE e (List.mem_cons_self e t)
    have ht : ∀ x ∈ t, x.1 < x.2 ∧ x.2 < n :=
      fun x hx => hE x (List.mem_cons_of_mem e hx)
    have hsum2 : (∑ v ∈ Finset.range n,
        if e.1 = v ∨ e.2 = v then 1 else 0) = 2 := by
      rw [Finset.sum_boole]
      have hfe : (Finset.range n).filter (fun v => e.1 = v ∨ e.2 = v) =
          {e.1, e.2} := by
        ext x
        simp only [Finset.mem_filter, Finset.mem_range, Finset.mem_insert,
          Finset.mem_singleton]
        omega
      rw [hfe, Finset.card_insert_of_not_mem (by simp; omega),
        Finset.card_singleton]
      norm_num
    calc ∑ v ∈ Finset.range n, degList (e :: t) v
        = ∑ v ∈ Finset.range n,
            (degList t v + if e.1 = v ∨ e.2 = v then 1 else 0) := by
          exact Finset.sum_congr rfl (fun v _ => degList_cons e t v)
      _ = (∑ v ∈ Finset.range n, degList t v) +
            ∑ v ∈ Finset.range n, (if e.1 = v ∨ e.2 = v then 1 else 0) := by
          rw [Finset.sum_add_distrib]
      _ = 2 * t.length + 2 := by rw [ih ht, hsum2]
      _ = 2 * (e :: t).length := by simp; ring

theorem sum_eq_sum_getD (l : List ℤ) :
    l.sum = ∑ i ∈ Finset.range l.length, l.getD i 0 := by
  induction l with
  | nil => simp
  | cons a t ih =>
    rw [List.sum_cons, ih, List.length_cons, Finset.sum_range_succ']
    simp [List.getD]
    ring

theorem sortedEdges_nodup (E : Finset (ℕ × ℕ)) : (sortedEdges E).Nodup := by
  have h := E.nodup
  rw [sortedEdges_perm E] at h
  exact Multiset.coe_nodup.1 h

theorem mem_sortedEdges (E : Finset (ℕ × ℕ)) (e : ℕ × ℕ) :
    e ∈ sortedEdges E ↔ e ∈ E := by
  rw [← Multiset.mem_coe, ← sortedEdges_perm E]
  exact Iff.rfl

theorem length_sortedEdges (E : Finset (ℕ × ℕ)) :
    (sortedEdges E).length = E.card := by
  rw [Finset.card_def, sortedEdges_perm E, Multiset.coe_card]

theorem degList_sortedEdges (E : Finset (ℕ × ℕ)) (v : ℕ) :
    degList (sortedEdges E) v = degIn E v := by
  unfold degList degIn
  rw [Finset.card_def, Finset.filter_val, sortedEdges_perm E,
    Multiset.filter_coe, Multiset.coe_card]

theorem mem_of_getElemQ {α : Type} {l : List α} {i : ℕ} {a : α}
    (h : l[i]? = some a) : a ∈ l := by
  obtain ⟨hlt, hg⟩ := List.getElem?_eq_some_iff.1 h
  exact hg ▸ List.getElem_mem hlt

theorem getD_set_same (l : List ℤ) (i : ℕ) (x : ℤ) (h : i < l.length) :
    (l.set i x).getD i 0 = x := by
  rw [List.getD_eq_getElem?_getD, List.getElem?_set_self (by omega)]
  rfl

theorem getD_set_ne (l : List ℤ) (i w : ℕ) (x : ℤ) (h : w ≠ i) :
    (l.set i x).getD w 0 = l.getD w 0 := by
  rw [List.getD_eq_getElem?_getD, List.getD_eq_getElem?_getD,
    List.getElem?_set_ne (by omega)]

theorem getD_mem_int (l : List ℤ) (i : ℕ) (h : i < l.length) :
    l.getD i 0 ∈ l := by
  rw [List.getD_eq_getElem?_getD, List.getElem?_eq_getElem h]
  exact List.getElem_mem h

/-- The inner `for idx in targets` loop of `_havel_hakimi_realize`:
whenever it succeeds it keeps the vertex column of `items` unchanged,
keeps remaining degrees nonnegative, adds only canonical in-range edges,
and moves exactly `targets.length` units of demand from the head vertex
`v` (one new incident edge per target) while decrementing each connected
entry once. -/
theorem hhStepInner_ok (n v : ℕ) (targets : List ℕ)
    (items items2 : List (ℤ × ℕ)) (E E2 : Finset (ℕ × ℕ))
    (hok : hhStepInner v targets items E = .ok (items2, E2))
    (hv : v < n)
    (hlt : ∀ p ∈ items, p.2 < n)
    (hnn : ∀ p ∈ items, 0 ≤ p.1)
    (hE : ∀ e ∈ E, e.1 < e.2 ∧ e.2 < n) :
    items2.map Prod.snd = items.map Prod.snd ∧
    (∀ p ∈ items2, 0 ≤ p.1) ∧
    (∀ e ∈ E2, e.1 < e.2 ∧ e.2 < n) ∧
    (∀ w, (degIn E2 w : ℤ) + remaining items2 w =
      (degIn E w : ℤ) + remaining items w +
        (if w = v then (targets.length : ℤ) else 0)) := by
  induction targets generalizing items E with
  | nil =>
    simp only [hhStepInner, Except.ok.injEq, Prod.mk.injEq] at hok
    obtain ⟨h1, h2⟩ := hok
    subst h1
    subst h2
    exact ⟨rfl, hnn, hE, fun w => by simp⟩
  | cons idx rest ih =>
    simp only [hhStepInner] at hok
    cases hidx : items[idx]? with
    | none => rw [hidx] at hok; simp at hok
    | some p =>
      obtain ⟨dk, u⟩ := p
      rw [hidx] at hok
      dsimp only at hok
      split_ifs at hok with h1 h2 h3
      have humem : (dk, u) ∈ items := mem_of_getElemQ hidx
      have hun : u < n := hlt (dk, u) humem
      have hvu : v ≠ u := h3
      have hlt' : ∀ p ∈ items.set idx (dk - 1, u), p.2 < n := by
        intro p hp
        rcases List.mem_or_eq_of_mem_set hp with hp' | hp'
        · exact hlt p hp'
        · rw [hp']; exact hun
      have hnn' : ∀ p ∈ items.set idx (dk - 1, u), 0 ≤ p.1 := by
        intro p hp
        rcases List.mem_or_eq_of_mem_set hp with hp' | hp'
        · exact hnn p hp'
        · rw [hp']; simp; omega
      have hE' : ∀ e ∈ insert (edgeKey v u) E, e.1 < e.2 ∧ e.2 < n := by
        intro e he
        rcases Finset.mem_insert.1 he with he' | he'
        · rw [he']; exact edgeKey_bounds v u n hvu hv hun
        · exact hE e he'
      obtain ⟨hmap, hpos, hedges, hacc⟩ :=
        ih (items.set idx (dk - 1, u)) (insert (edgeKey v u) E) hok
          hlt' hnn' hE'
      refine ⟨hmap.trans (mapsnd_set items idx dk u (dk - 1) hidx),
        hpos, hedges, fun w => ?_⟩
      have hkey := degIn_insert E (edgeKey v u) w h2
      rw [ite_inc_key] at hkey
      have hrem := remaining_set items idx dk u (dk - 1) w hidx
      have hstep := hacc w
      simp only [List.length_cons]
      push_cast at hstep ⊢
      by_cases hwv : w = v
      · have hwu : ¬ w = u := fun hc => hvu (hwv ▸ hc ▸ rfl)
        have hvw : v = w ∨ u = w := Or.inl hwv.symm
        rw [if_pos hwv] at hstep ⊢
        rw [if_pos hvw] at hkey
        rw [if_neg hwu, if_neg hwu] at hrem
        omega
      · rw [if_neg hwv] at hstep ⊢
        by_cases hwu : w = u
        · have hvw : v = w ∨ u = w := Or.inr hwu.symm
          rw [if_pos hvw] at hkey
          rw [if_pos hwu, if_pos hwu] at hrem
          omega
        · have hvw : ¬ (v = w ∨ u = w) := by
            rintro (hc | hc)
            · exact hwv hc.symm
            · exact hwu hc.symm
          rw [if_neg hvw] at hkey
          rw [if_neg hwu, if_neg hwu] at hrem
          omega

/-- The outer `while True` loop of `_havel_hakimi_realize`: on success the
final edge set is canonical-in-range and realizes exactly the demands
described by the invariant `degIn E w + remaining items w = D[w]`. -/
theorem hhLoop_ok (n : ℕ) (D : List ℤ) (shuf : ℕ → List ℕ → List ℕ)
    (useShuf : Bool) (fuel : ℕ) : ∀ (step : ℕ) (items : List (ℤ × ℕ))
    (E Efin : Finset (ℕ × ℕ)),
    hhLoop shuf useShuf step fuel items E = .ok Efin →
    (∀ c l, (shuf c l).Perm l) →
    (items.map Prod.snd).Nodup →
    (∀ p ∈ items, p.2 < n) →
    (∀ p ∈ items, 0 ≤ p.1) →
    (∀ e ∈ E, e.1 < e.2 ∧ e.2 < n) →
    (∀ w, (degIn E w : ℤ) + remaining items w = D.getD w 0) →
    (∀ e ∈ Efin, e.1 < e.2 ∧ e.2 < n) ∧
    (∀ w, (degIn Efin w : ℤ) = D.getD w 0) := by
  induction fuel with
  | zero => intro step items E Efin hok; exact Except.noConfusion hok
  | succ fuel ih =>
    intro step items E Efin hok hshuf hnod hlt hnn hE hacc
    rw [hhLoop] at hok
    cases hs : List.insertionSort degGe items with
    | nil => rw [hs] at hok; exact Except.noConfusion hok
    | cons kv rest =>
      obtain ⟨k, v⟩ := kv
      rw [hs] at hok
      dsimp only at hok
      generalize htg : (if useShuf = true ∧ 1 < k
        then shuf step (List.range k.toNat)
        else List.range k.toNat) = tg at hok
      have hperm : ((k, v) :: rest).Perm items :=
        hs ▸ List.perm_insertionSort degGe items
      have hsorted : List.Sorted degGe ((k, v) :: rest) :=
        hs ▸ List.sorted_insertionSort degGe items
      split_ifs at hok with hk0 hkneg hklen
      · -- head demand 0: break, return E
        simp only [Except.ok.injEq] at hok
        subst hok
        have hall : ∀ p ∈ items, p.1 = 0 := by
          intro p hp
          rcases List.mem_cons.1 (hperm.mem_iff.2 hp) with hp' | hp'
          · rw [hp', hk0]
          · have hle : p.1 ≤ k := (List.sorted_cons.1 hsorted).1 p hp'
            have h0 : 0 ≤ p.1 := hnn p hp
            omega
        constructor
        · exact hE
        · intro w
          have := hacc w
          rw [remaining_of_all_zero items hall w] at this
          omega
      · -- success step
        have hkv_mem : (k, v) ∈ items :=
          hperm.mem_iff.1 (List.mem_cons_self _ _)
        have hv : v < n := hlt _ hkv_mem
        have hnodcons : (((k, v) :: rest).map Prod.snd).Nodup :=
          ((hperm.map Prod.snd).nodup_iff).2 hnod
        simp only [List.map_cons] at hnodcons
        have hvnotin : v ∉ rest.map Prod.snd := (List.nodup_cons.1 hnodcons).1
        have hnodrest : (rest.map Prod.snd).Nodup := (List.nodup_cons.1 hnodcons).2
        have hltrest : ∀ p ∈ rest, p.2 < n :=
          fun p hp => hlt p (hperm.mem_iff.1 (List.mem_cons_of_mem _ hp))
        have hnnrest : ∀ p ∈ rest, 0 ≤ p.1 :=
          fun p hp => hnn p (hperm.mem_iff.1 (List.mem_cons_of_mem _ hp))
        cases hinner : hhStepInner v tg rest E with
        | error e => rw [hinner] at hok; exact Except.noConfusion hok
        | ok p =>
          obtain ⟨items2, E2⟩ := p
          rw [hinner] at hok
          dsimp only at hok
          obtain ⟨hmap, hpos, hedges, haccI⟩ :=
            hhStepInner_ok n v _ rest items2 E E2 hinner hv hltrest hnnrest hE
          have hlen : tg.length = k.toNat := by
            rw [← htg]
            split
            · exact ((hshuf step (List.range k.toNat)).length_eq).trans
                (List.length_range k.toNat)
            · exact List.length_range k.toNat
          have hk_to : ((k.toNat : ℤ)) = k := Int.toNat_of_nonneg (by omega)
          have hnod2 : (items2.map Prod.snd).Nodup := by
            rw [hmap]; exact hnodrest
          have hlt2 : ∀ p ∈ items2, p.2 < n := by
            intro p hp
            have hmem : p.2 ∈ rest.map Prod.snd := by
              rw [← hmap]; exact List.mem_map_of_mem Prod.snd hp
            obtain ⟨q, hq, hq2⟩ := List.mem_map.1 hmem
            exact hq2 ▸ hltrest q hq
          have hacc2 : ∀ w, (degIn E2 w : ℤ) + remaining items2 w =
              D.getD w 0 := by
            intro w
            have h1 := haccI w
            rw [hlen] at h1
            have h2 : remaining ((k, v) :: rest) w = remaining items w :=
              remaining_perm hperm w
            rw [remaining_cons] at h2
            have h3 := hacc w
            by_cases hwv : w = v
            · rw [if_pos hwv] at h1
              have : ((k, v) : ℤ × ℕ).2 = w := by simp [hwv]
              rw [if_pos this] at h2
              simp only at h2
              omega
            · rw [if_neg hwv] at h1
              have : ¬ ((k, v) : ℤ × ℕ).2 = w := by simp; exact fun hc => hwv hc.symm
              rw [if_neg this] at h2
              omega
          exact ih (step + 1) items2 E2 Efin hok hshuf hnod2 hlt2 hpos hedges
            hacc2

theorem remaining_map_pairs (l : List ℕ) (g : ℕ → ℤ) (w : ℕ)
    (hl : l.Nodup) :
    remaining (l.map (fun i => (g i, i))) w = if w ∈ l then g w else 0 := by
  induction l with
  | nil => simp [remaining]
  | cons a t ih =>
    rw [List.map_cons, remaining_cons,
      ih (List.nodup_cons.1 hl).2]
    by_cases haw : a = w
    · subst haw
      have hnt : a ∉ t := (List.nodup_cons.1 hl).1
      simp [hnt]
    · have : w ∈ a :: t ↔ w ∈ t := by
        simp [List.mem_cons]
        exact fun hc => absurd hc.symm haw
      by_cases hwt : w ∈ t <;> simp [haw, hwt, this]

/-- Canonical-realization property of claim C1 for a degree sequence and
a returned edge list: canonical form (ordered pairs, no loops, no
duplicates, endpoints in `[0, n)`, ascending lexicographic order), edge
count equal to half the degree sum, and every vertex `v` incident to
exactly `deg[v]` edges. -/
def RealizationOK (deg : List ℤ) (E : List (ℕ × ℕ)) : Prop :=
  List.Sorted edgeLe E ∧ E.Nodup ∧
  (∀ e ∈ E, e.1 < e.2 ∧ e.2 < deg.length) ∧
  2 * (E.length : ℤ) = deg.sum ∧ (E.length : ℤ) = deg.sum / 2 ∧
  (∀ v < deg.length, (degList E v : ℤ) = deg.getD v 0)

theorem realization_from_finset (deg : List ℤ) (Efin : Finset (ℕ × ℕ))
    (hedges : ∀ e ∈ Efin, e.1 < e.2 ∧ e.2 < deg.length)
    (hdeg : ∀ w, (degIn Efin w : ℤ) = deg.getD w 0) :
    RealizationOK deg (sortedEdges Efin) := by
  have hmem : ∀ e ∈ sortedEdges Efin, e.1 < e.2 ∧ e.2 < deg.length :=
    fun e he => hedges e ((mem_sortedEdges Efin e).1 he)
  have hdl : ∀ v, (degList (sortedEdges Efin) v : ℤ) = deg.getD v 0 := by
    intro v
    rw [degList_sortedEdges]
    exact hdeg v
  have hhs := degList_handshake (sortedEdges Efin) deg.length hmem
  have hsum : deg.sum = 2 * ((sortedEdges Efin).length : ℤ) := by
    rw [sum_eq_sum_getD deg]
    calc ∑ i ∈ Finset.range deg.length, deg.getD i 0
        = ∑ i ∈ Finset.range deg.length,
            ((degList (sortedEdges Efin) i : ℤ)) :=
          Finset.sum_congr rfl (fun i _ => (hdl i).symm)
      _ = ((∑ i ∈ Finset.range deg.length,
            degList (sortedEdges Efin) i : ℕ) : ℤ) := by push_cast; rfl
      _ = ((2 * (sortedEdges Efin).length : ℕ) : ℤ) := by rw [hhs]
      _ = 2 * ((sortedEdges Efin).length : ℤ) := by push_cast; rfl
  refine ⟨sortedEdges_sorted Efin, sortedEdges_nodup Efin, hmem, hsum.symm,
    ?_, fun v _ => hdl v⟩
  rw [hsum]
  omega

theorem normalize_deg_ok (deg d : List ℤ) (h : normalize_deg deg = .ok d) :
    d = deg ∧ ∀ x ∈ deg, 0 ≤ x := by
  unfold normalize_deg at h
  split_ifs at h with hneg
  simp only [Except.ok.injEq] at h
  refine ⟨h.symm, fun x hx => ?_⟩
  by_contra hc
  exact hneg (List.any_eq_true.2 ⟨x, hx, by simp; omega⟩)

theorem havel_hakimi_realize_ok (deg : List ℤ)
    (shuf : ℕ → List ℕ → List ℕ) (useShuf : Bool) (E : List (ℕ × ℕ))
    (hshuf : ∀ c l, (shuf c l).Perm l)
    (hok : havel_hakimi_realize deg shuf useShuf = .ok E) :
    RealizationOK deg E := by
  unfold havel_hakimi_realize at hok
  cases hnorm : normalize_deg deg with
  | error e => rw [hnorm] at hok; exact Except.noConfusion hok
  | ok d =>
    rw [hnorm] at hok
    dsimp only at hok
    obtain ⟨hdd, hnonneg⟩ := normalize_deg_ok deg d hnorm
    rw [hdd] at hok
    cases hloop : hhLoop shuf useShuf 0 ((deg.map Int.toNat).sum + 1)
        ((List.range deg.length).map (fun i => (deg.getD i 0, i))) ∅ with
    | error e => rw [hloop] at hok; exact Except.noConfusion hok
    | ok Efin =>
      rw [hloop] at hok
      dsimp only at hok
      simp only [Except.ok.injEq] at hok
      subst hok
      have h0nod : ((((List.range deg.length).map
          (fun i => (deg.getD i 0, i))).map Prod.snd)).Nodup := by
        rw [List.map_map]
        have hcomp : (Prod.snd ∘ fun i : ℕ => (deg.getD i 0, i)) =
            (fun i : ℕ => i) := rfl
        rw [hcomp]
        simpa using List.nodup_range deg.length
      have h0lt : ∀ p ∈ (List.range deg.length).map
          (fun i => (deg.getD i 0, i)), p.2 < deg.length := by
        intro p hp
        obtain ⟨i, hi, rfl⟩ := List.mem_map.1 hp
        simpa using List.mem_range.1 hi
      have h0nn : ∀ p ∈ (List.range deg.length).map
          (fun i => (deg.getD i 0, i)), 0 ≤ p.1 := by
        intro p hp
        obtain ⟨i, hi, rfl⟩ := List.mem_map.1 hp
        exact hnonneg _ (getD_mem_int deg i (List.mem_range.1 hi))
      have h0acc : ∀ w, (degIn ∅ w : ℤ) + remaining
          ((List.range deg.length).map (fun i => (deg.getD i 0, i))) w =
          deg.getD w 0 := by
        intro w
        rw [remaining_map_pairs _ _ _ (List.nodup_range deg.length)]
        simp only [degIn, Finset.filter_empty, Finset.card_empty,
          Nat.cast_zero, zero_add, List.mem_range]
        by_cases hw : w < deg.length
        · rw [if_pos hw]
        · rw [if_neg hw, List.getD_eq_default deg 0 (by omega)]
      obtain ⟨hedges, hdeg⟩ := hhLoop_ok deg.length deg shuf useShuf
        ((deg.map Int.toNat).sum + 1) 0 _ ∅ Efin hloop hshuf h0nod h0lt h0nn
        (by simp) h0acc
      exact realization_from_finset deg Efin hedges hdeg

theorem getD_mem_any {α : Type} (l : List α) (i : ℕ) (dflt : α)
    (h : i < l.length) : l.getD i dflt ∈ l := by
  rw [List.getD_eq_getElem?_getD, List.getElem?_eq_getElem h]
  exact List.getElem_mem h

theorem bump_length (d : List ℤ) (w : ℕ) (x : ℤ) :
    (bump d w x).length = d.length := List.length_set d w _

theorem bump_getD_same (d : List ℤ) (w : ℕ) (x : ℤ) (h : w < d.length) :
    (bump d w x).getD w 0 = d.getD w 0 + x := getD_set_same d w _ h

theorem bump_getD_ne (d : List ℤ) (w w' : ℕ) (x : ℤ) (h : w' ≠ w) :
    (bump d w x).getD w' 0 = d.getD w' 0 := getD_set_ne d w w' _ h

/-- The backtracking loop of `realize_backtracking`: on success the edge
set is canonical-in-range and its degrees are exactly the target degrees
(invariant: `degIn E w + d[w] = D[w]`, the stack holds the currently
placed distinct edges). -/
theorem btLoop_ok (n : ℕ) (D : List ℤ) (pairs : List (ℕ × ℕ)) (fuel : ℕ) :
    ∀ (d : List ℤ) (E Efin : Finset (ℕ × ℕ))
      (stack : List (ℕ × (ℕ × ℕ) × (ℤ × ℤ))) (idx : ℕ),
    btLoop pairs fuel d E stack idx = .ok Efin →
    (∀ p ∈ pairs, p.1 < p.2 ∧ p.2 < n) →
    d.length = n →
    (∀ e ∈ E, e.1 < e.2 ∧ e.2 < n) →
    (∀ f ∈ stack, f.2.1 ∈ pairs ∧ f.2.1 ∈ E) →
    ((stack.map (fun f => f.2.1)).Nodup) →
    (∀ w, (degIn E w : ℤ) + d.getD w 0 = D.getD w 0) →
    (∀ e ∈ Efin, e.1 < e.2 ∧ e.2 < n) ∧
    (∀ w, (degIn Efin w : ℤ) = D.getD w 0) := by
  induction fuel with
  | zero =>
    intro d E Efin stack idx hok
    exact fun _ _ _ _ _ _ => Except.noConfusion hok
  | succ fuel ih =>
    intro d E Efin stack idx hok hpairs hdlen hE hstack hnodst hacc
    rw [btLoop.eq_def] at hok
    dsimp only at hok
    split_ifs at hok with hdone hidx hcan
    · -- all demands zero: success
      simp only [Except.ok.injEq] at hok
      subst hok
      refine ⟨hE, fun w => ?_⟩
      have hw := hacc w
      by_cases hlt : w < d.length
      · have hz : d.getD w 0 = 0 := by
          have hmem := getD_mem_int d w hlt
          have := List.all_eq_true.1 hdone _ hmem
          simpa using this
        omega
      · rw [List.getD_eq_default d 0 (by omega)] at hw
        omega
    · -- index exhausted: undo the top stack frame
      cases stack with
      | nil => exact Except.noConfusion hok
      | cons frame stack2 =>
        obtain ⟨pidx, uv, dd⟩ := frame
        obtain ⟨u, v⟩ := uv
        dsimp only at hok
        have hfr := hstack _ (List.mem_cons_self _ _)
        have huv := hpairs _ hfr.1
        have hkey : edgeKey u v = (u, v) := by
          unfold edgeKey; rw [if_pos huv.1]
        have hun : u < n := lt_trans huv.1 huv.2
        have hvn : v < n := huv.2
        have hneuv : u ≠ v := Nat.ne_of_lt huv.1
        have hE' : ∀ e ∈ E.erase (edgeKey u v), e.1 < e.2 ∧ e.2 < n :=
          fun e he => hE e (Finset.mem_of_mem_erase he)
        have hstack' : ∀ f ∈ stack2, f.2.1 ∈ pairs ∧
            f.2.1 ∈ E.erase (edgeKey u v) := by
          intro f hf
          have h1 := hstack f (List.mem_cons_of_mem _ hf)
          refine ⟨h1.1, Finset.mem_erase.2 ⟨?_, h1.2⟩⟩
          rw [hkey]
          have hne : f.2.1 ∈ stack2.map (fun f => f.2.1) :=
            List.mem_map_of_mem _ hf
          intro hc
          exact (List.nodup_cons.1 hnodst).1 (hc ▸ hne)
        have hnodst' : (stack2.map (fun f => f.2.1)).Nodup :=
          (List.nodup_cons.1 hnodst).2
        have hdlen' : (bump (bump d u 1) v 1).length = n := by
          rw [bump_length, bump_length]; exact hdlen
        have hacc' : ∀ w, (degIn (E.erase (edgeKey u v)) w : ℤ) +
            (bump (bump d u 1) v 1).getD w 0 = D.getD w 0 := by
          intro w
          have hdg := degIn_erase E (edgeKey u v) w (hkey ▸ hfr.2)
          rw [ite_inc_key] at hdg
          have hw := hacc w
          by_cases hwu : w = u
          · subst hwu
            rw [bump_getD_ne _ _ _ _ hneuv,
              bump_getD_same _ _ _ (by omega)]
            rw [if_pos (Or.inl rfl)] at hdg
            omega
          · by_cases hwv : w = v
            · subst hwv
              rw [bump_getD_same _ _ _ (by rw [bump_length]; omega)]
              rw [bump_getD_ne _ _ _ _ (fun hc => hwu hc)] at *
              rw [if_pos (Or.inr rfl)] at hdg
              omega
            · rw [bump_getD_ne _ _ _ _ (fun hc => hwv hc),
                bump_getD_ne _ _ _ _ (fun hc => hwu hc)]
              rw [if_neg (by omega)] at hdg
              omega
        exact ih (bump (bump d u 1) v 1) (E.erase (edgeKey u v)) Efin stack2
          (pidx + 1) hok hpairs hdlen' hE' hstack' hnodst' hacc'
    · -- try the pair at position idx: can_add holds, place the edge
      have hplen : idx < pairs.length := by omega
      have hpmem : pairs.getD idx (0, 0) ∈ pairs :=
        getD_mem_any pairs idx (0, 0) hplen
      have huv := hpairs _ hpmem
      cases hp : pairs.getD idx (0, 0) with
      | mk u v =>
        rw [hp] at hok hcan huv
        have hun : u < n := lt_trans huv.1 huv.2
        have hvn : v < n := huv.2
        have hneuv : u ≠ v := Nat.ne_of_lt huv.1
        have hkey : edgeKey u v = (u, v) := by
          unfold edgeKey; rw [if_pos huv.1]
        have hcan' := hcan
        unfold can_add at hcan'
        simp only [Bool.and_eq_true, decide_eq_true_eq] at hcan'
        obtain ⟨⟨hdu, hdv⟩, hnotin⟩ := hcan'
        have hE' : ∀ e ∈ insert (edgeKey u v) E,
            e.1 < e.2 ∧ e.2 < n := by
          intro e he
          rcases Finset.mem_insert.1 he with he' | he'
          · rw [he', hkey]; exact huv
          · exact hE e he'
        have hstack' : ∀ f ∈ (idx, (u, v),
              ((bump (bump d u (-1)) v (-1)).getD u 0,
               (bump (bump d u (-1)) v (-1)).getD v 0)) :: stack,
            f.2.1 ∈ pairs ∧ f.2.1 ∈ insert (edgeKey u v) E := by
          intro f hf
          rcases List.mem_cons.1 hf with hf' | hf'
          · rw [hf']
            exact ⟨hp ▸ hpmem, by rw [hkey]; exact Finset.mem_insert_self _ _⟩
          · have h1 := hstack f hf'
            exact ⟨h1.1, Finset.mem_insert_of_mem h1.2⟩
        have hnodst' : (((idx, (u, v),
              ((bump (bump d u (-1)) v (-1)).getD u 0,
               (bump (bump d u (-1)) v (-1)).getD v 0)) :: stack).map
            (fun f => f.2.1)).Nodup := by
          rw [List.map_cons]
          refine List.nodup_cons.2 ⟨?_, hnodst⟩
          intro hc
          obtain ⟨f, hf, hfeq⟩ := List.mem_map.1 hc
          have h1 := hstack f hf
          rw [hfeq] at h1
          exact hnotin (hkey ▸ h1.2)
        have hdlen' : (bump (bump d u (-1)) v (-1)).length = n := by
          rw [bump_length, bump_length]; exact hdlen
        have hacc' : ∀ w, (degIn (insert (edgeKey u v) E) w : ℤ) +
            (bump (bump d u (-1)) v (-1)).getD w 0 = D.getD w 0 := by
          intro w
          have hdg := degIn_insert E (edgeKey u v) w hnotin
          rw [ite_inc_key] at hdg
          have hw := hacc w
          by_cases hwu : w = u
          · subst hwu
            rw [bump_getD_ne _ _ _ _ hneuv,
              bump_getD_same _ _ _ (by omega)]
            rw [if_pos (Or.inl rfl)] at hdg
            omega
          · by_cases hwv : w = v
            · subst hwv
              rw [bump_getD_same _ _ _ (by rw [bump_length]; omega)]
              rw [bump_getD_ne _ _ _ _ (fun hc => hwu hc)] at *
              rw [if_pos (Or.inr rfl)] at hdg
              omega
            · rw [bump_getD_ne _ _ _ _ (fun hc => hwv hc),
                bump_getD_ne _ _ _ _ (fun hc => hwu hc)]
              rw [if_neg (by omega)] at hdg
              omega
        exact ih _ _ Efin _ 0 hok hpairs hdlen' hE' hstack' hnodst' hacc'
    · exact ih d E Efin stack (idx + 1) hok hpairs hdlen hE hstack
        hnodst hacc
theorem mem_allPairs (n : ℕ) (p : ℕ × ℕ) (hp : p ∈ allPairs n) :
    p.1 < p.2 ∧ p.2 < n := by
  unfold allPairs at hp
  obtain ⟨i, hi, hp2⟩ := List.mem_flatMap.1 hp
  obtain ⟨j, hj, rfl⟩ := List.mem_map.1 hp2
  have hj2 := List.mem_filter.1 hj
  simp only [List.mem_range, decide_eq_true_eq] at hj2
  exact ⟨hj2.2, hj2.1⟩

theorem realize_backtracking_ok (deg : List ℤ)
    (shufPairs : List (ℕ × ℕ) → List (ℕ × ℕ)) (useShuf : Bool)
    (max_steps : ℕ) (E : List (ℕ × ℕ))
    (hshufP : ∀ l, (shufPairs l).Perm l)
    (hok : realize_backtracking deg shufPairs useShuf max_steps = .ok E) :
    RealizationOK deg E := by
  unfold realize_backtracking at hok
  cases hnorm : normalize_deg deg with
  | error e => rw [hnorm] at hok; exact Except.noConfusion hok
  | ok d =>
    rw [hnorm] at hok
    dsimp only at hok
    obtain ⟨hdd, hnonneg⟩ := normalize_deg_ok deg d hnorm
    rw [hdd] at hok
    generalize hpl : (if useShuf then shufPairs (allPairs deg.length)
        else allPairs deg.length) = pl at hok
    split_ifs at hok with hpar
    cases hloop : btLoop (List.insertionSort (btGe deg) pl)
        max_steps deg ∅ [] 0 with
    | error e => rw [hloop] at hok; exact Except.noConfusion hok
    | ok Efin =>
      rw [hloop] at hok
      dsimp only at hok
      simp only [Except.ok.injEq] at hok
      subst hok
      have hperm : pl.Perm (allPairs deg.length) := by
        rw [← hpl]
        split
        · exact hshufP _
        · exact List.Perm.refl _
      have hpairs : ∀ p ∈ List.insertionSort (btGe deg) pl,
          p.1 < p.2 ∧ p.2 < deg.length := by
        intro p hp
        have h1 := (List.perm_insertionSort (btGe deg) _).mem_iff.1 hp
        exact mem_allPairs deg.length p (hperm.mem_iff.1 h1)
      have hacc : ∀ w, (degIn (∅ : Finset (ℕ × ℕ)) w : ℤ) +
          deg.getD w 0 = deg.getD w 0 := by
        intro w
        simp [degIn]
      obtain ⟨hedges, hdeg⟩ := btLoop_ok deg.length deg _ max_steps deg ∅
        Efin [] 0 hloop hpairs rfl
        (fun e he => absurd he (Finset.not_mem_empty e))
        (fun f hf => absurd hf (List.not_mem_nil f)) (by simp) hacc
      exact realization_from_finset deg Efin hedges hdeg

/-- Claim C1: for every degree sequence accepted by the Havel-Hakimi
graphicality test, whenever any of the three realizers
(`realize_greedy`, `realize_random_greedy`, `realize_backtracking`)
returns an edge list `E`, `E` is canonical (sorted ascending, no
duplicates, every pair `u < v` with endpoints in `[0, n)`),
`2 * |E| = Σ deg` (hence `|E| = Σ deg / 2`), and each vertex `v` is
incident to exactly `deg[v]` edges.  The shuffle oracles range over all
permutations, covering every PRNG seed. -/
theorem realizers_canonical (deg : List ℤ) (E : List (ℕ × ℕ))
    (shuf : ℕ → List ℕ → List ℕ)
    (shufPairs : List (ℕ × ℕ) → List (ℕ × ℕ)) (useShuf : Bool)
    (max_steps : ℕ)
    (hgraphical : is_graphical_havel_hakimi deg = true)
    (hshuf : ∀ c l, (shuf c l).Perm l)
    (hshufP : ∀ l, (shufPairs l).Perm l) :
    (realize_greedy deg = .ok E → RealizationOK deg E) ∧
    (realize_random_greedy shuf deg = .ok E → RealizationOK deg E) ∧
    (realize_backtracking deg shufPairs useShuf max_steps = .ok E →
      RealizationOK deg E) :=
  ⟨fun hok => havel_hakimi_realize_ok deg (fun _ l => l) false E
      (fun _ l => List.Perm.refl l) hok,
   fun hok => havel_hakimi_realize_ok deg shuf true E hshuf hok,
   fun hok => realize_backtracking_ok deg shufPairs useShuf max_steps E
      hshufP hok⟩

theorem realizers_canonical_witness :
    is_graphical_havel_hakimi [1, 1] = true ∧
    realize_backtracking [1, 1] (fun l => l) true 10 = .ok [(0, 1)] ∧
    RealizationOK [1, 1] [(0, 1)] :=
  ⟨rfl, rfl,
    (realizers_canonical [1, 1] [(0, 1)] (fun _ l => l) (fun l => l) true 10
      rfl (fun _ l => List.Perm.refl l) (fun l => List.Perm.refl l)).2.2
      rfl⟩

/-! ## Metaheuristics (src/core/services/meta.py, runner.py, metrics.py,
spectrum.py)

`normalize_edges` (runner.py) drops loops, orients each pair as
`(min, max)`, drops out-of-range and duplicate edges (first occurrence
kept), and sorts the result lexicographically.

`build_adj` / `is_connected` (metrics.py): adjacency sets per vertex and
BFS-from-0 connectivity.  The BFS visits exactly the set of vertices
reachable from `0`; it is embedded as the `n`-fold neighbourhood closure
of `{0}`, which reaches the same fixpoint (each round before the
fixpoint adds at least one of the at most `n` reachable vertices).  Both
are only ever called on `normalize_edges` output, whose endpoints lie in
`[0, n)` (out-of-range endpoints would raise `IndexError` in the
source).

`spectral_radius` (spectrum.py) builds the 0/1 adjacency matrix and
returns its largest eigenvalue; it is embedded exactly as the supremum
of the real spectrum of the adjacency matrix (the source computes a
floating-point approximation of the same quantity).

`hill_climb` / `simulated_annealing` (meta.py) iterate random 2-switch
proposals.  The PRNG is an oracle pair: `pick t` is the index drawn by
the `t`-th `rnd.choice` event (taken modulo the list length, so every
oracle is realizable), `unif t` the value of a `rnd.random()` call at
event `t`; both read a shared event counter, as the calls share one PRNG
state in the source.  `list(edge_set)` is embedded as the canonical
enumeration `sortedEdges`; composed with an arbitrary index oracle this
covers every enumeration order.  The loop state is
(current set, current edges, current score, accepted moves, counter);
the loop is generic in the score function for `hill_climb` (the source
always instantiates it with `spectral_radius n`). -/

def normClean (n : ℕ) : List (ℕ × ℕ) → Finset (ℕ × ℕ) → List (ℕ × ℕ)
  | [], _ => []
  | (u, v) :: rest, seen =>
    if u = v then normClean n rest seen
    else if ¬((edgeKey u v).1 < n ∧ (edgeKey u v).2 < n) then
      normClean n rest seen
    else if edgeKey u v ∈ seen then normClean n rest seen
    else edgeKey u v :: normClean n rest (insert (edgeKey u v) seen)

def normalize_edges (n : ℕ) (edges : List (ℕ × ℕ)) : List (ℕ × ℕ) :=
  List.insertionSort edgeLe (normClean n edges ∅)

def build_adj (n : ℕ) (edges : List (ℕ × ℕ)) : List (Finset ℕ) :=
  (List.range n).map (fun v =>
    edges.foldl (fun s e =>
      if e.1 = e.2 then s
      else if e.1 = v then insert e.2 s
      else if e.2 = v then insert e.1 s
      else s) ∅)

def bfsReach (adj : List (Finset ℕ)) : ℕ → Finset ℕ → Finset ℕ
  | 0, seen => seen
  | f + 1, seen =>
    bfsReach adj f (seen ∪ seen.biUnion (fun v => adj.getD v ∅))

def is_connected (n : ℕ) (adj : List (Finset ℕ)) : Bool :=
  if n = 0 then true
  else decide ((bfsReach adj n {0}).card = n)

def hcLoop {α : Type} [LinearOrder α] (n : ℕ) (score : List (ℕ × ℕ) → α)
    (pick : ℕ → ℕ) (mode : String) (connected_only : Bool) :
    ℕ → Finset (ℕ × ℕ) → List (ℕ × ℕ) → α → ℕ → ℕ →
      List (ℕ × ℕ) × α × ℕ
  | 0, _, cur_edges, cur_sr, accepted, _ => (cur_edges, cur_sr, accepted)
  | it + 1, cur_set, cur_edges, cur_sr, accepted, ctr =>
    if (sortedEdges cur_set).length < 2 then
      hcLoop n score pick mode connected_only it cur_set cur_edges cur_sr
        accepted ctr
    else if (two_switch cur_set
        ((sortedEdges cur_set).getD (pick ctr % (sortedEdges cur_set).length)
          (0, 0))
        ((sortedEdges cur_set).getD
          (pick (ctr + 1) % (sortedEdges cur_set).length) (0, 0))).1 =
        false then
      hcLoop n score pick mode connected_only it cur_set cur_edges cur_sr
        accepted (ctr + 2)
    else if connected_only = true ∧ is_connected n (build_adj n
        (normalize_edges n (sortedEdges (two_switch cur_set
          ((sortedEdges cur_set).getD
            (pick ctr % (sortedEdges cur_set).length) (0, 0))
          ((sortedEdges cur_set).getD
            (pick (ctr + 1) % (sortedEdges cur_set).length) (0, 0))).2))) =
        false then
      hcLoop n score pick mode connected_only it cur_set cur_edges cur_sr
        accepted (ctr + 2)
    else if (if mode = "min" then
        score (normalize_edges n (sortedEdges (two_switch cur_set
          ((sortedEdges cur_set).getD
            (pick ctr % (sortedEdges cur_set).length) (0, 0))
          ((sortedEdges cur_set).getD
            (pick (ctr + 1) % (sortedEdges cur_set).length) (0, 0))).2)) <
          cur_sr
      else cur_sr <
        score (normalize_edges n (sortedEdges (two_switch cur_set
          ((sortedEdges cur_set).getD
            (pick ctr % (sortedEdges cur_set).length) (0, 0))
          ((sortedEdges cur_set).getD
            (pick (ctr + 1) % (sortedEdges cur_set).length) (0, 0))).2))) then
      hcLoop n score pick mode connected_only it
        (two_switch cur_set
          ((sortedEdges cur_set).getD
            (pick ctr % (sortedEdges cur_set).length) (0, 0))
          ((sortedEdges cur_set).getD
            (pick (ctr + 1) % (sortedEdges cur_set).length) (0, 0))).2
        (normalize_edges n (sortedEdges (two_switch cur_set
          ((sortedEdges cur_set).getD
            (pick ctr % (sortedEdges cur_set).length) (0, 0))
          ((sortedEdges cur_set).getD
            (pick (ctr + 1) % (sortedEdges cur_set).length) (0, 0))).2))
        (score (normalize_edges n (sortedEdges (two_switch cur_set
          ((sortedEdges cur_set).getD
            (pick ctr % (sortedEdges cur_set).length) (0, 0))
          ((sortedEdges cur_set).getD
            (pick (ctr + 1) % (sortedEdges cur_set).length) (0, 0))).2)))
        (accepted + 1) (ctr + 2)
    else
      hcLoop n score pick mode connected_only it cur_set cur_edges cur_sr
        accepted (ctr + 2)

def adjMatrix (n : ℕ) (edges : List (ℕ × ℕ)) : Matrix (Fin n) (Fin n) ℝ :=
  Matrix.of (fun i j =>
    if (i.val, j.val) ∈ edges ∨ (j.val, i.val) ∈ edges then 1 else 0)

noncomputable def spectral_radius (n : ℕ) (edges : List (ℕ × ℕ)) : ℝ :=
  sSup (spectrum ℝ (adjMatrix n edges))

noncomputable def hill_climb (degrees : List ℤ)
    (start_edges : List (ℕ × ℕ)) (pick : ℕ → ℕ) (iterations : ℕ)
    (mode : String) (connected_only : Bool) : List (ℕ × ℕ) × ℝ × ℕ :=
  hcLoop degrees.length (spectral_radius degrees.length) pick mode
    connected_only iterations
    (normalize_edges degrees.length start_edges).toFinset
    (normalize_edges degrees.length start_edges)
    (spectral_radius degrees.length
      (normalize_edges degrees.length start_edges)) 0 0

noncomputable def saLoop (n : ℕ) (score : List (ℕ × ℕ) → ℝ)
    (pick : ℕ → ℕ) (unif : ℕ → ℝ) (iterations : ℕ) (t0_temp t_end : ℝ)
    (mode : String) (connected_only : Bool) :
    ℕ → ℕ → Finset (ℕ × ℕ) → List (ℕ × ℕ) → ℝ → ℕ → ℕ →
      List (ℕ × ℕ) × ℝ × ℕ
  | _, 0, _, cur_edges, cur_sr, accepted, _ => (cur_edges, cur_sr, accepted)
  | it, rem + 1, cur_set, cur_edges, cur_sr, accepted, ctr =>
    if (sortedEdges cur_set).length < 2 then
      saLoop n score pick unif iterations t0_temp t_end mode connected_only
        (it + 1) rem cur_set cur_edges cur_sr accepted ctr
    else if (two_switch cur_set
        ((sortedEdges cur_set).getD (pick ctr % (sortedEdges cur_set).length)
          (0, 0))
        ((sortedEdges cur_set).getD
          (pick (ctr + 1) % (sortedEdges cur_set).length) (0, 0))).1 =
        false then
      saLoop n score pick unif iterations t0_temp t_end mode connected_only
        (it + 1) rem cur_set cur_edges cur_sr accepted (ctr + 2)
    else if connected_only = true ∧ is_connected n (build_adj n
        (normalize_edges n (sortedEdges (two_switch cur_set
          ((sortedEdges cur_set).getD
            (pick ctr % (sortedEdges cur_set).length) (0, 0))
          ((sortedEdges cur_set).getD
            (pick (ctr + 1) % (sortedEdges cur_set).length) (0, 0))).2))) =
        false then
      saLoop n score pick unif iterations t0_temp t_end mode connected_only
        (it + 1) rem cur_set cur_edges cur_sr accepted (ctr + 2)
    else if (if mode = "min" then
        score (normalize_edges n (sortedEdges (two_switch cur_set
          ((sortedEdges cur_set).getD
            (pick ctr % (sortedEdges cur_set).length) (0, 0))
          ((sortedEdges cur_set).getD
            (pick (ctr + 1) % (sortedEdges cur_set).length) (0, 0))).2)) -
          cur_sr
      else cur_sr -
        score (normalize_edges n (sortedEdges (two_switch cur_set
          ((sortedEdges cur_set).getD
            (pick ctr % (sortedEdges cur_set).length) (0, 0))
          ((sortedEdges cur_set).getD
            (pick (ctr + 1) % (sortedEdges cur_set).length) (0, 0))).2))) <
        0 then
      saLoop n score pick unif iterations t0_temp t_end mode connected_only
        (it + 1) rem
        (two_switch cur_set
          ((sortedEdges cur_set).getD
            (pick ctr % (sortedEdges cur_set).length) (0, 0))
          ((sortedEdges cur_set).getD
            (pick (ctr + 1) % (sortedEdges cur_set).length) (0, 0))).2
        (normalize_edges n (sortedEdges (two_switch cur_set
          ((sortedEdges cur_set).getD
            (pick ctr % (sortedEdges cur_set).length) (0, 0))
          ((sortedEdges cur_set).getD
            (pick (ctr + 1) % (sortedEdges cur_set).length) (0, 0))).2))
        (score (normalize_edges n (sortedEdges (two_switch cur_set
          ((sortedEdges cur_set).getD
            (pick ctr % (sortedEdges cur_set).length) (0, 0))
          ((sortedEdges cur_set).getD
            (pick (ctr + 1) % (sortedEdges cur_set).length) (0, 0))).2)))
        (accepted + 1) (ctr + 2)
    else if unif (ctr + 2) < Real.exp (-(if mode = "min" then
        score (normalize_edges n (sortedEdges (two_switch cur_set
          ((sortedEdges cur_set).getD
            (pick ctr % (sortedEdges cur_set).length) (0, 0))
          ((sortedEdges cur_set).getD
            (pick (ctr + 1) % (sortedEdges cur_set).length) (0, 0))).2)) -
          cur_sr
      else cur_sr -
        score (normalize_edges n (sortedEdges (two_switch cur_set
          ((sortedEdges cur_set).getD
            (pick ctr % (sortedEdges cur_set).length) (0, 0))
          ((sortedEdges cur_set).getD
            (pick (ctr + 1) % (sortedEdges cur_set).length) (0, 0))).2))) /
        (if t0_temp + (t_end - t0_temp) *
            ((it : ℝ) / ((max 1 (iterations - 1) : ℕ) : ℝ)) ≤ 0 then
          (1 : ℝ) / 10 ^ 12
        else t0_temp + (t_end - t0_temp) *
          ((it : ℝ) / ((max 1 (iterations - 1) : ℕ) : ℝ)))) then
      saLoop n score pick unif iterations t0_temp t_end mode connected_only
        (it + 1) rem
        (two_switch cur_set
          ((sortedEdges cur_set).getD
            (pick ctr % (sortedEdges cur_set).length) (0, 0))
          ((sortedEdges cur_set).getD
            (pick (ctr + 1) % (sortedEdges cur_set).length) (0, 0))).2
        (normalize_edges n (sortedEdges (two_switch cur_set
          ((sortedEdges cur_set).getD
            (pick ctr % (sortedEdges cur_set).length) (0, 0))
          ((sortedEdges cur_set).getD
            (pick (ctr + 1) % (sortedEdges cur_set).length) (0, 0))).2))
        (score (normalize_edges n (sortedEdges (two_switch cur_set
          ((sortedEdges cur_set).getD
            (pick ctr % (sortedEdges cur_set).length) (0, 0))
          ((sortedEdges cur_set).getD
            (pick (ctr + 1) % (sortedEdges cur_set).length) (0, 0))).2)))
        (accepted + 1) (ctr + 3)
    else
      saLoop n score pick unif iterations t0_temp t_end mode connected_only
        (it + 1) rem cur_set cur_edges cur_sr accepted (ctr + 3)

noncomputable def simulated_annealing (degrees : List ℤ)
    (start_edges : List (ℕ × ℕ)) (pick : ℕ → ℕ) (unif : ℕ → ℝ)
    (iterations : ℕ) (t0_temp t_end : ℝ) (mode : String)
    (connected_only : Bool) : List (ℕ × ℕ) × ℝ × ℕ :=
  saLoop degrees.length (spectral_radius degrees.length) pick unif
    iterations t0_temp t_end mode connected_only 0 iterations
    (normalize_edges degrees.length start_edges).toFinset
    (normalize_edges degrees.length start_edges)
    (spectral_radius degrees.length
      (normalize_edges degrees.length start_edges)) 0 0

theorem hcLoop_monotone {α : Type} [LinearOrder α] (n : ℕ)
    (score : List (ℕ × ℕ) → α) (pick : ℕ → ℕ) (mode : String)
    (co : Bool) :
    ∀ (iters : ℕ) (cur_set : Finset (ℕ × ℕ)) (cur_edges : List (ℕ × ℕ))
      (cur_sr : α) (accepted ctr : ℕ),
    (hcLoop n score pick mode co iters cur_set cur_edges cur_sr accepted
        ctr).2.2 ≤ accepted + iters ∧
    (mode = "min" → (hcLoop n score pick mode co iters cur_set cur_edges
        cur_sr accepted ctr).2.1 ≤ cur_sr) ∧
    (mode ≠ "min" → cur_sr ≤ (hcLoop n score pick mode co iters cur_set
        cur_edges cur_sr accepted ctr).2.1) := by
  intro iters
  induction iters with
  | zero =>
    intro cur_set cur_edges cur_sr accepted ctr
    exact ⟨le_refl _, fun _ => le_refl _, fun _ => le_refl _⟩
  | succ it ih =>
    intro cur_set cur_edges cur_sr accepted ctr
    rw [hcLoop]
    split_ifs with h1 h2 h3 hm h5 h5
    · obtain ⟨ha, hmin, hmax⟩ := ih cur_set cur_edges cur_sr accepted ctr
      exact ⟨by omega, hmin, hmax⟩
    · obtain ⟨ha, hmin, hmax⟩ := ih cur_set cur_edges cur_sr accepted
        (ctr + 2)
      exact ⟨by omega, hmin, hmax⟩
    · obtain ⟨ha, hmin, hmax⟩ := ih cur_set cur_edges cur_sr accepted
        (ctr + 2)
      exact ⟨by omega, hmin, hmax⟩
    · obtain ⟨ha, hmin, hmax⟩ := ih _ _ _ (accepted + 1) (ctr + 2)
      exact ⟨by omega, fun hmode => le_trans (hmin hmode) (le_of_lt h5),
        fun hmode => absurd hm hmode⟩
    · obtain ⟨ha, hmin, hmax⟩ := ih cur_set cur_edges cur_sr accepted
        (ctr + 2)
      exact ⟨by omega, hmin, hmax⟩
    · obtain ⟨ha, hmin, hmax⟩ := ih _ _ _ (accepted + 1) (ctr + 2)
      exact ⟨by omega, fun hmode => absurd hmode hm,
        fun _ => le_trans (le_of_lt h5) (hmax hm)⟩
    · obtain ⟨ha, hmin, hmax⟩ := ih cur_set cur_edges cur_sr accepted
        (ctr + 2)
      exact ⟨by omega, hmin, hmax⟩

/-- Claim C3: for every degree sequence, start edge list, random oracle
(i.e. every seed), iteration budget, mode and `connected_only` flag,
`hill_climb` is monotone in the mode: the returned accepted-move count
is at most the iteration budget, in mode `"min"` the returned objective
is at most the spectral radius of the normalized start edges, and in any
other mode (in particular `"max"`) it is at least that value. -/
theorem hill_climb_monotone (degrees : List ℤ)
    (start_edges : List (ℕ × ℕ)) (pick : ℕ → ℕ) (iterations : ℕ)
    (mode : String) (connected_only : Bool) :
    (hill_climb degrees start_edges pick iterations mode
        connected_only).2.2 ≤ iterations ∧
    (mode = "min" →
      (hill_climb degrees start_edges pick iterations mode
          connected_only).2.1 ≤
        spectral_radius degrees.length
          (normalize_edges degrees.length start_edges)) ∧
    (mode ≠ "min" →
      spectral_radius degrees.length
          (normalize_edges degrees.length start_edges) ≤
        (hill_climb degrees start_edges pick iterations mode
          connected_only).2.1) := by
  have h := hcLoop_monotone degrees.length (spectral_radius degrees.length)
    pick mode connected_only iterations
    (normalize_edges degrees.length start_edges).toFinset
    (normalize_edges degrees.length start_edges)
    (spectral_radius degrees.length
      (normalize_edges degrees.length start_edges)) 0 0
  unfold hill_climb
  exact ⟨by have := h.1; omega, h.2.1, h.2.2⟩

theorem hill_climb_monotone_witness :
    (hill_climb [1, 1] [(0, 1)] (fun t => t) 3 "min" false).2.2 ≤ 3 ∧
    ("min" = "min" →
      (hill_climb [1, 1] [(0, 1)] (fun t => t) 3 "min" false).2.1 ≤
        spectral_radius ([1, 1] : List ℤ).length
          (normalize_edges ([1, 1] : List ℤ).length [(0, 1)])) ∧
    ("min" ≠ "min" →
      spectral_radius ([1, 1] : List ℤ).length
          (normalize_edges ([1, 1] : List ℤ).length [(0, 1)]) ≤
        (hill_climb [1, 1] [(0, 1)] (fun t => t) 3 "min" false).2.1) :=
  hill_climb_monotone [1, 1] [(0, 1)] (fun t => t) 3 "min" false

theorem adjMatrix_swap :
    adjMatrix 4 [(0, 2), (1, 3)] =
      (adjMatrix 4 [(0, 1), (2, 3)]).submatrix (Equiv.swap (1 : Fin 4) 2)
        (Equiv.swap (1 : Fin 4) 2) := by
  ext i j
  simp only [adjMatrix, Matrix.submatrix_apply, Matrix.of_apply]
  fin_cases i <;> fin_cases j <;> exact if_congr (by decide) rfl rfl

/-- The matchings `{(0,1),(2,3)}` and `{(0,2),(1,3)}` on 4 vertices are
isomorphic (swap vertices 1 and 2), so they have the same adjacency
spectrum and the same spectral radius. -/
theorem spectral_radius_swap :
    spectral_radius 4 [(0, 2), (1, 3)] =
      spectral_radius 4 [(0, 1), (2, 3)] := by
  unfold spectral_radius
  have h2 : (adjMatrix 4 [(0, 1), (2, 3)]).submatrix
      (Equiv.swap (1 : Fin 4) 2) (Equiv.swap (1 : Fin 4) 2) =
      Matrix.reindexAlgEquiv ℝ ℝ (Equiv.swap (1 : Fin 4) 2)
        (adjMatrix 4 [(0, 1), (2, 3)]) := by
    rw [Matrix.reindexAlgEquiv_apply, Matrix.reindex_apply, Equiv.symm_swap]
  rw [adjMatrix_swap, h2, AlgEquiv.spectrum_eq]

theorem hc_run_pair :
    hill_climb [1, 1, 1, 1] [(0, 1), (2, 3)] (fun t => t) 1 "min" false =
      ([(0, 1), (2, 3)], spectral_radius 4 [(0, 1), (2, 3)], 0) := by
  show hcLoop 4 (spectral_radius 4) (fun t => t) "min" false (0 + 1)
      ([(0, 1), (2, 3)] : List (ℕ × ℕ)).toFinset [(0, 1), (2, 3)]
      (spectral_radius 4 [(0, 1), (2, 3)]) 0 0 =
    ([(0, 1), (2, 3)], spectral_radius 4 [(0, 1), (2, 3)], 0)
  rw [hcLoop]
  rw [if_neg (by decide)]
  rw [if_neg (by decide)]
  rw [if_neg (by simp)]
  have hcand : normalize_edges 4 (sortedEdges (two_switch
      ([(0, 1), (2, 3)] : List (ℕ × ℕ)).toFinset
      ((sortedEdges ([(0, 1), (2, 3)] : List (ℕ × ℕ)).toFinset).getD
        (0 % (sortedEdges ([(0, 1), (2, 3)] : List (ℕ × ℕ)).toFinset).length)
        (0, 0))
      ((sortedEdges ([(0, 1), (2, 3)] : List (ℕ × ℕ)).toFinset).getD
        ((0 + 1) %
          (sortedEdges ([(0, 1), (2, 3)] : List (ℕ × ℕ)).toFinset).length)
        (0, 0))).2) = [(0, 2), (1, 3)] := by decide
  rw [hcand, spectral_radius_swap]
  rw [if_neg (by rw [if_pos (rfl : "min" = "min")]; exact lt_irrefl _)]
  rw [hcLoop]

theorem sa_run_pair :
    simulated_annealing [1, 1, 1, 1] [(0, 1), (2, 3)] (fun t => t)
        (fun _ => 1 / 2) 1 (1 / 10 ^ 12) (1 / 10 ^ 12) "min" false =
      ([(0, 2), (1, 3)], spectral_radius 4 [(0, 1), (2, 3)], 1) := by
  show saLoop 4 (spectral_radius 4) (fun t => t) (fun _ => 1 / 2) 1
      (1 / 10 ^ 12) (1 / 10 ^ 12) "min" false 0 (0 + 1)
      ([(0, 1), (2, 3)] : List (ℕ × ℕ)).toFinset [(0, 1), (2, 3)]
      (spectral_radius 4 [(0, 1), (2, 3)]) 0 0 =
    ([(0, 2), (1, 3)], spectral_radius 4 [(0, 1), (2, 3)], 1)
  rw [saLoop]
  rw [if_neg (by decide)]
  rw [if_neg (by decide)]
  rw [if_neg (by simp)]
  have hcand : normalize_edges 4 (sortedEdges (two_switch
      ([(0, 1), (2, 3)] : List (ℕ × ℕ)).toFinset
      ((sortedEdges ([(0, 1), (2, 3)] : List (ℕ × ℕ)).toFinset).getD
        (0 % (sortedEdges ([(0, 1), (2, 3)] : List (ℕ × ℕ)).toFinset).length)
        (0, 0))
      ((sortedEdges ([(0, 1), (2, 3)] : List (ℕ × ℕ)).toFinset).getD
        ((0 + 1) %
          (sortedEdges ([(0, 1), (2, 3)] : List (ℕ × ℕ)).toFinset).length)
        (0, 0))).2) = [(0, 2), (1, 3)] := by decide
  rw [hcand, spectral_radius_swap]
  rw [if_neg (by
    rw [if_pos (rfl : "min" = "min"), sub_self]
    exact lt_irrefl 0)]
  rw [if_pos (by
    rw [if_pos (rfl : "min" = "min"), sub_self, neg_zero, zero_div,
      Real.exp_zero]
    norm_num)]
  rw [saLoop]

/-- Claim C7 (counterexample): with `t0 = t_end = 1e-12`,
`simulated_annealing` does NOT return the same final edge set as
`hill_climb` on the same inputs.  On degrees `[1,1,1,1]`, start
`[(0,1),(2,3)]`, one iteration, mode `"min"`, the proposed 2-switch
produces the isomorphic matching `[(0,2),(1,3)]` with exactly the same
spectral radius: `hill_climb` rejects it (no strict improvement), while
`simulated_annealing` has `delta = 0` and accepts it with probability
`exp(0) = 1`, i.e. for every uniform draw (here 1/2); moreover the
extra `rnd.random()` draw desynchronizes the shared random stream. -/
theorem sa_hc_diverge_at_tiny_temp :
    (simulated_annealing [1, 1, 1, 1] [(0, 1), (2, 3)] (fun t => t)
        (fun _ => 1 / 2) 1 (1 / 10 ^ 12) (1 / 10 ^ 12) "min" false).1 =
      [(0, 2), (1, 3)] ∧
    (hill_climb [1, 1, 1, 1] [(0, 1), (2, 3)] (fun t => t) 1 "min"
        false).1 = [(0, 1), (2, 3)] ∧
    (simulated_annealing [1, 1, 1, 1] [(0, 1), (2, 3)] (fun t => t)
        (fun _ => 1 / 2) 1 (1 / 10 ^ 12) (1 / 10 ^ 12) "min" false).1 ≠
      (hill_climb [1, 1, 1, 1] [(0, 1), (2, 3)] (fun t => t) 1 "min"
        false).1 := by
  rw [sa_run_pair, hc_run_pair]
  exact ⟨rfl, rfl, by decide⟩

theorem hcLoop_stuck {α : Type} [LinearOrder α] (n : ℕ)
    (score : List (ℕ × ℕ) → α) (pick : ℕ → ℕ) (mode : String) (co : Bool)
    (cur_set : Finset (ℕ × ℕ)) (cur_edges : List (ℕ × ℕ)) (cur_sr : α)
    (hlen : (sortedEdges cur_set).length < 2) :
    ∀ (iters accepted ctr : ℕ),
    hcLoop n score pick mode co iters cur_set cur_edges cur_sr accepted
      ctr = (cur_edges, cur_sr, accepted) := by
  intro iters
  induction iters with
  | zero => intro accepted ctr; rfl
  | succ it ih =>
    intro accepted ctr
    rw [hcLoop, if_pos hlen]
    exact ih accepted ctr

theorem saLoop_stuck (n : ℕ) (score : List (ℕ × ℕ) → ℝ) (pick : ℕ → ℕ)
    (unif : ℕ → ℝ) (iterations : ℕ) (t0_temp t_end : ℝ) (mode : String)
    (co : Bool) (cur_set : Finset (ℕ × ℕ)) (cur_edges : List (ℕ × ℕ))
    (cur_sr : ℝ) (hlen : (sortedEdges cur_set).length < 2) :
    ∀ (rem it accepted ctr : ℕ),
    saLoop n score pick unif iterations t0_temp t_end mode co it rem
      cur_set cur_edges cur_sr accepted ctr =
      (cur_edges, cur_sr, accepted) := by
  intro rem
  induction rem with
  | zero => intro it accepted ctr; rfl
  | succ r ih =>
    intro it accepted ctr
    rw [saLoop, if_pos hlen]
    exact ih (it + 1) accepted ctr

/-- Claim C7 (amended): `simulated_annealing` with `t0 = t_end = 1e-12`
does agree with `hill_climb` (same final edges, objective and accepted
count) whenever no 2-switch proposal is ever scored — in particular
whenever the normalized start has fewer than two edges, so that every
proposal fails structurally and neither loop consumes a uniform draw.
In general the two differ: see the counterexample, where a `delta = 0`
proposal is accepted by `simulated_annealing` (acceptance probability
`exp(0) = 1`) but rejected by `hill_climb`. -/
theorem sa_equals_hc_when_no_proposals (degrees : List ℤ)
    (start_edges : List (ℕ × ℕ)) (pick : ℕ → ℕ) (unif : ℕ → ℝ)
    (iterations : ℕ) (mode : String) (connected_only : Bool)
    (h : (normalize_edges degrees.length start_edges).length < 2) :
    simulated_annealing degrees start_edges pick unif iterations
        (1 / 10 ^ 12) (1 / 10 ^ 12) mode connected_only =
      hill_climb degrees start_edges pick iterations mode
        connected_only := by
  have hcard : (sortedEdges
      (normalize_edges degrees.length start_edges).toFinset).length < 2 := by
    rw [length_sortedEdges]
    exact lt_of_le_of_lt (List.toFinset_card_le _) h
  unfold simulated_annealing hill_climb
  rw [saLoop_stuck _ _ _ _ _ _ _ _ _ _ _ _ hcard,
    hcLoop_stuck _ _ _ _ _ _ _ _ hcard]

theorem sa_equals_hc_when_no_proposals_witness :
    (normalize_edges ([1, 1] : List ℤ).length [(0, 1)]).length < 2 ∧
    simulated_annealing [1, 1] [(0, 1)] (fun t => t) (fun _ => 1 / 2) 5
        (1 / 10 ^ 12) (1 / 10 ^ 12) "min" false =
      hill_climb [1, 1] [(0, 1)] (fun t => t) 5 "min" false :=
  ⟨by decide, sa_equals_hc_when_no_proposals [1, 1] [(0, 1)] (fun t => t)
    (fun _ => 1 / 2) 5 "min" false (by decide)⟩
